import Mathlib

/-!
Verification of the numerical linear-algebra and signal-processing kernel
(`src/matrix/matrixOperations.js`, `src/matrix/signalProcessing.js`).

JavaScript numbers are modelled by exact rationals (`ℚ`) where the code is pure
arithmetic, and by `ℝ` where the code calls the trigonometric library
(`Math.cos`, `Math.sin`, `Math.PI`).  Operations that can throw in JavaScript
(singular-matrix checks, `Array(-1)`, property access on `undefined`,
division producing `NaN`) are modelled with `Except JsErr`.  `Math.round x`
is `⌊x + 1/2⌋` (round half towards positive infinity), exactly as in
JavaScript for finite inputs.
-/

/-- The failure conditions the kernel can produce at runtime. -/
inductive JsErr : Type
  /-- `'Matrix is singular and cannot be inverted'` -/
  | singularMatrix
  /-- `'System has no unique solution'` -/
  | noUniqueSolution
  /-- `'Zero pivot encountered'` -/
  | zeroPivot
  /-- `'Input length must be a power of 2'` -/
  | invalidLength
  /-- unbounded recursion: JavaScript aborts with a stack-overflow RangeError -/
  | stackOverflow
  /-- `Array(n)` with negative `n`: RangeError invalid array length -/
  | invalidArrayLength
  /-- property access on `undefined` (e.g. `image[0].length` on an empty array) -/
  | typeError
  /-- a division whose denominator is zero, producing `NaN`/`Infinity` -/
  | divisionByZero
deriving DecidableEq, Repr

instance {ε α : Type} [DecidableEq ε] [DecidableEq α] : DecidableEq (Except ε α) := fun a b =>
  match a, b with
  | .error e, .error f =>
    if h : e = f then isTrue (by rw [h]) else
      isFalse (fun hh => by injection hh with h2; exact h h2)
  | .ok x, .ok y =>
    if h : x = y then isTrue (by rw [h]) else
      isFalse (fun hh => by injection hh with h2; exact h h2)
  | .error _, .ok _ => isFalse (fun hh => Except.noConfusion hh)
  | .ok _, .error _ => isFalse (fun hh => Except.noConfusion hh)

/-- `matrix[r][c]` with the convention that reads of missing entries are
modelled by `0`; all claims constrain indices to the actual shape. -/
def entry (m : List (List ℚ)) (r c : ℕ) : ℚ :=
  (m.getD r []).getD c 0

/-- `Math.round` on an exact rational: JavaScript rounds half towards
positive infinity, which is `⌊q + 1/2⌋`. -/
def jsRound (q : ℚ) : ℤ := ⌊q + 1/2⌋

/-- The fixed numerical tolerance `1e-10` used by the pivot checks. -/
def tol : ℚ := 1 / 10000000000

/-- The `1e-6` bound used by the spec for elementwise approximation. -/
def approxTol : ℚ := 1 / 1000000

theorem tol_pos : 0 < tol := by norm_num [tol]

/-! ### Generic list-indexing lemmas -/

theorem getD_map_range {α : Type} :
    ∀ (n : ℕ) (f : ℕ → α) (r : ℕ) (d : α),
      ((List.range n).map f).getD r d = if r < n then f r else d := by
  intro n
  induction n with
  | zero => intro f r d; simp [List.getD_nil]
  | succ n ih =>
    intro f r d
    rw [List.range_succ_eq_map, List.map_cons, List.map_map]
    cases r with
    | zero => simp
    | succ r =>
      rw [List.getD_cons_succ]
      rw [show (List.map (f ∘ Nat.succ) (List.range n)) =
        List.map (fun i => f (i + 1)) (List.range n) from by
          refine List.map_congr_left (fun i _ => rfl)]
      rw [ih (fun i => f (i + 1)) r d]
      exact if_congr (by omega) rfl rfl

theorem getD_map_zero (f : ℚ → ℚ) (hf : f 0 = 0) (l : List ℚ) (c : ℕ) :
    (l.map f).getD c 0 = f (l.getD c 0) := by
  induction l generalizing c with
  | nil => simp [List.getD_nil, hf]
  | cons a l ih =>
    cases c with
    | zero => simp
    | succ c => simpa [List.getD_cons_succ] using ih c

theorem getD_append {α : Type} (l1 l2 : List α) (j : ℕ) (d : α) :
    (l1 ++ l2).getD j d =
      if j < l1.length then l1.getD j d else l2.getD (j - l1.length) d := by
  induction l1 generalizing j with
  | nil => simp [List.getD_nil]
  | cons a l ih =>
    cases j with
    | zero => simp
    | succ j =>
      rw [List.cons_append, List.getD_cons_succ, ih]
      by_cases h : j < l.length
      · simp [h, List.getD_cons_succ, Nat.succ_lt_succ_iff]
      · simp [h, Nat.succ_lt_succ_iff, Nat.succ_sub_succ]

theorem getD_set {α : Type} (l : List α) (i : ℕ) (a : α) (r : ℕ) (d : α) :
    (l.set i a).getD r d = if r = i ∧ i < l.length then a else l.getD r d := by
  induction l generalizing i r with
  | nil => simp [List.getD_nil]
  | cons b l ih =>
    cases i with
    | zero =>
      cases r with
      | zero => simp [List.set]
      | succ r => simp [List.set, List.getD_cons_succ]
    | succ i =>
      cases r with
      | zero => simp [List.set]
      | succ r =>
        simp only [List.set, List.getD_cons_succ, List.length_cons]
        rw [ih]
        exact if_congr (by constructor <;> (intro hx; exact ⟨by omega, by omega⟩)) rfl rfl

theorem getD_drop {α : Type} (l : List α) (n j : ℕ) (d : α) :
    (l.drop n).getD j d = l.getD (n + j) d := by
  induction l generalizing n with
  | nil => simp [List.getD_nil]
  | cons a l ih =>
    cases n with
    | zero => simp
    | succ n =>
      rw [List.drop_succ_cons, ih, show n + 1 + j = (n + j) + 1 from by omega,
        List.getD_cons_succ]

theorem headD_eq_getD {α : Type} (l : List α) (d : α) : l.headD d = l.getD 0 d := by
  cases l <;> rfl

theorem getD_zipWith (f : ℚ → ℚ → ℚ) (hf : f 0 0 = 0) (l1 l2 : List ℚ)
    (h : l1.length = l2.length) (c : ℕ) :
    (List.zipWith f l1 l2).getD c 0 = f (l1.getD c 0) (l2.getD c 0) := by
  induction l1 generalizing l2 c with
  | nil =>
    cases l2 with
    | nil => simp [List.getD_nil, hf]
    | cons b l2 => simp at h
  | cons a l1 ih =>
    cases l2 with
    | nil => simp at h
    | cons b l2 =>
      cases c with
      | zero => simp
      | succ c =>
        simp only [List.length_cons, Nat.succ_inj] at h
        simpa [List.getD_cons_succ] using ih l2 h c

/-- Re-building a list from its `getD` values over `range` of its length. -/
theorem map_range_getD {α : Type} (l : List α) (d : α) :
    (List.range l.length).map (fun i => l.getD i d) = l := by
  induction l with
  | nil => simp
  | cons a l ih =>
    rw [List.length_cons, List.range_succ_eq_map, List.map_cons, List.map_map]
    rw [show ((fun i => (a :: l).getD i d) ∘ Nat.succ) = (fun i => l.getD i d) from by
      funext i; exact List.getD_cons_succ]
    rw [ih]
    simp

/-- Folding `+` of `f` over `List.range` is the `Finset.range` sum. -/
theorem foldl_add_eq_sum (f : ℕ → ℚ) (m : ℕ) (a : ℚ) :
    (List.range m).foldl (fun s k => s + f k) a = a + ∑ k in Finset.range m, f k := by
  induction m generalizing a with
  | zero => simp
  | succ m ih =>
    rw [List.range_succ, List.foldl_append, ih, Finset.sum_range_succ]
    simp [add_assoc]

/-- Folding a conditional accumulation over `List.range` is a sum of `ite` terms. -/
theorem foldl_ite_add_eq_sum (c : ℕ → Prop) [DecidablePred c] (f : ℕ → ℚ) (m : ℕ) (a : ℚ) :
    (List.range m).foldl (fun s k => if c k then s + f k else s) a
      = a + ∑ k in Finset.range m, (if c k then f k else 0) := by
  induction m generalizing a with
  | zero => simp
  | succ m ih =>
    rw [List.range_succ, List.foldl_append, ih, Finset.sum_range_succ]
    by_cases h : c m <;> simp [h, add_assoc]

/-! ### `convolution1d` (signalProcessing.js lines 12–29)

`outputLen = signal.length + kernel.length - 1` is computed in ℤ because
JavaScript `Array(-1)` (both inputs empty) throws a RangeError. -/

def convolution1d (signal kernel : List ℚ) : Except JsErr (List ℚ) :=
  if ((signal.length : ℤ) + (kernel.length : ℤ) - 1) < 0 then .error .invalidArrayLength
  else .ok ((List.range ((signal.length : ℤ) + (kernel.length : ℤ) - 1).toNat).map (fun (i : ℕ) =>
    (List.range kernel.length).foldl (fun acc (j : ℕ) =>
      if 0 ≤ (i : ℤ) - (j : ℤ) ∧ (i : ℤ) - (j : ℤ) < (signal.length : ℤ) then
        acc + signal.getD ((i : ℤ) - (j : ℤ)).toNat 0 * kernel.getD j 0
      else acc) 0))

/-- `signal[m]` with implicit zero padding outside `[0, len)`, as in the spec's
description of full convolution. -/
def sigPad (signal : List ℚ) (m : ℤ) : ℚ :=
  if 0 ≤ m ∧ m < (signal.length : ℤ) then signal.getD m.toNat 0 else 0

/-! ### `histogramEqualization` (signalProcessing.js lines 228–274)

The histogram array of length 256 is modelled as the counting function
`histCount`, the CDF loop as the recurrence `cdfAt`, and the scan for the
first non-zero CDF entry as `List.find?` over `0..255`.  The lookup-table
loop divides by `totalPixels - cdfMin` for every entry; when that
denominator is zero every entry is `NaN` (0/0) or `-Infinity`, modelled by
`JsErr.divisionByZero`.  An empty image throws a TypeError at
`image[0].length`. -/

/-- `Math.min(255, Math.max(0, Math.round(v)))`. -/
def clamp255 (q : ℚ) : ℤ := min 255 (max 0 (jsRound q))

/-- Number of pixels (iterated as `i < rows`, `j < cols` like the source)
whose clamped value is `v`. -/
def histCount (image : List (List ℚ)) (v : ℤ) : ℕ :=
  (List.range image.length).foldl (fun acc i =>
    (List.range (image.headD []).length).foldl (fun a j =>
      if clamp255 (entry image i j) = v then a + 1 else a) acc) 0

/-- `cdf[i] = cdf[i-1] + histogram[i]`, `cdf[0] = histogram[0]`. -/
def cdfAt (image : List (List ℚ)) : ℕ → ℕ
  | 0 => histCount image 0
  | i + 1 => cdfAt image i + histCount image (i + 1)

/-- First non-zero CDF value scanning `i = 0..255` (0 if none). -/
def cdfMinVal (image : List (List ℚ)) : ℕ :=
  match (List.range 256).find? (fun i => decide (0 < cdfAt image i)) with
  | some i => cdfAt image i
  | none => 0

def histogramEqualization (image : List (List ℚ)) : Except JsErr (List (List ℤ)) :=
  match image with
  | [] => .error .typeError
  | _ =>
    if image.length * (image.headD []).length = cdfMinVal image then .error .divisionByZero
    else .ok ((List.range image.length).map (fun i =>
      (List.range (image.headD []).length).map (fun j =>
        jsRound ((((cdfAt image (clamp255 (entry image i j)).toNat : ℚ) - (cdfMinVal image : ℚ)) * 255)
          / ((image.length * (image.headD []).length : ℚ) - (cdfMinVal image : ℚ))))))


/-! ### Claim theorems for C1 and C6 -/

theorem jsRound_zero : jsRound 0 = 0 := by
  rw [jsRound, zero_add, Int.floor_eq_zero_iff]
  constructor <;> norm_num

theorem clamp255_zero : clamp255 0 = 0 := by
  simp [clamp255, jsRound_zero]

theorem histCount_single0 : histCount [[0]] 0 = 1 := by
  rw [histCount]
  simp [show List.range 1 = [0] from by decide, entry, clamp255_zero]

theorem cdfMinVal_single0 : cdfMinVal [[0]] = 1 := by
  have hc : cdfAt [[0]] 0 = 1 := histCount_single0
  rw [cdfMinVal, show (256 : ℕ) = 255 + 1 from rfl, List.range_succ_eq_map,
    List.find?_cons_of_pos _ (by simp [hc])]
  exact hc

/-- C1: the degenerate case (every pixel clamps to the same 8-bit value, so
`totalPixels == cdfMin`) is NOT guarded in the source: on the uniform 1×1
image `[[0]]` the lookup-table loop computes `(cdf[i]-cdfMin)*255/0`, a
division by zero (`NaN` entries in JavaScript), instead of the identity
mapping the spec requires. -/
theorem claim_C1 :
    histogramEqualization [[0]] = .error .divisionByZero ∧
    (Except.error .divisionByZero : Except JsErr (List (List ℤ))) ≠ .ok [[0]] := by
  constructor
  · simp [histogramEqualization, cdfMinVal_single0]
  · intro h
    exact Except.noConfusion h

/-- C6 counterexample: with both signal and kernel empty the source computes
`outputLen = -1` and `Array(-1)` throws a RangeError, so `convolution1d`
does not succeed on all length-≥0 inputs. -/
theorem claim_C6_cex :
    convolution1d [] [] = .error .invalidArrayLength ∧
    ∀ r : List ℚ, (Except.error JsErr.invalidArrayLength : Except JsErr (List ℚ)) ≠ .ok r := by
  refine ⟨?_, fun r h => Except.noConfusion h⟩
  rw [convolution1d]
  norm_num

/-- C6 (amended: signal and kernel not both empty): `convolution1d` succeeds,
the output has length `len(signal) + len(kernel) - 1`, each entry is
`Σ_j kernel[j]·signal[i-j]` with implicit zero padding, and in particular
`convolution1d [1,2,3] [1] = [1,2,3]`. -/
theorem claim_C6 (signal kernel : List ℚ) (h : 1 ≤ signal.length + kernel.length) :
    (∃ r, convolution1d signal kernel = .ok r ∧
      r.length = signal.length + kernel.length - 1 ∧
      ∀ i < r.length,
        r.getD i 0 = ∑ j in Finset.range kernel.length,
          kernel.getD j 0 * sigPad signal ((i : ℤ) - (j : ℤ))) ∧
    convolution1d [1, 2, 3] [1] = .ok [1, 2, 3] := by
  constructor
  · have hnonneg : ¬ (((signal.length : ℤ) + (kernel.length : ℤ) - 1) < 0) := by
      omega
    have hok : convolution1d signal kernel =
        .ok ((List.range ((signal.length : ℤ) + (kernel.length : ℤ) - 1).toNat).map (fun (i : ℕ) =>
          (List.range kernel.length).foldl (fun acc (j : ℕ) =>
            if 0 ≤ (i : ℤ) - (j : ℤ) ∧ (i : ℤ) - (j : ℤ) < (signal.length : ℤ) then
              acc + signal.getD ((i : ℤ) - (j : ℤ)).toNat 0 * kernel.getD j 0
            else acc) 0)) := by
      rw [convolution1d, if_neg hnonneg]
    refine ⟨_, hok, ?_, ?_⟩
    · rw [List.length_map, List.length_range]
      omega
    · intro i hi
      rw [List.length_map, List.length_range] at hi
      rw [getD_map_range, if_pos hi]
      rw [foldl_ite_add_eq_sum, zero_add]
      refine Finset.sum_congr rfl (fun j hj => ?_)
      by_cases hc : 0 ≤ (i : ℤ) - (j : ℤ) ∧ (i : ℤ) - (j : ℤ) < (signal.length : ℤ)
      · rw [if_pos hc, sigPad, if_pos hc, mul_comm]
      · rw [if_neg hc, sigPad, if_neg hc, mul_zero]
  · rw [convolution1d]
    norm_num [show List.range 1 = [0] from by decide, show List.range 3 = [0, 1, 2] from by decide,
      show Int.toNat 3 = 3 from rfl, List.getD]

/-- C6 witness: the theorem applied at `signal = [1,2,3]`, `kernel = [1]`. -/
theorem claim_C6_witness :
    1 ≤ ([1, 2, 3] : List ℚ).length + ([1] : List ℚ).length ∧
    ((∃ r, convolution1d [1, 2, 3] [1] = .ok r ∧
      r.length = ([1, 2, 3] : List ℚ).length + ([1] : List ℚ).length - 1 ∧
      ∀ i < r.length,
        r.getD i 0 = ∑ j in Finset.range ([1] : List ℚ).length,
          ([1] : List ℚ).getD j 0 * sigPad [1, 2, 3] ((i : ℤ) - (j : ℤ))) ∧
      convolution1d [1, 2, 3] [1] = .ok [1, 2, 3]) :=
  ⟨by decide, claim_C6 [1, 2, 3] [1] (by decide)⟩

/-! ### matrixOperations.js

`matrixMultiply` reads `A[0].length` and `B[0].length` before looping, so the
model uses `headD`; every claim below applies it only to well-formed
(nonempty, rectangular) matrices. -/

def matrixMultiply (A B : List (List ℚ)) : List (List ℚ) :=
  (List.range A.length).map (fun i =>
    (List.range (B.headD []).length).map (fun j =>
      (List.range (A.headD []).length).foldl (fun acc k => acc + entry A i k * entry B k j) 0))

/-- `identityMatrix n` (zeros with the diagonal loop folded into a closed form). -/
def identityMatrix (n : ℕ) : List (List ℚ) :=
  (List.range n).map (fun i => (List.range n).map (fun j => if j = i then (1 : ℚ) else 0))

/-- The pivot-search loop shared by `matrixInverse` and `linearEquationSolver`:
`maxRow` starts at `col` and is replaced whenever a strictly larger absolute
value is found in rows `col+1 .. n-1`. -/
def findPivotRow (aug : List (List ℚ)) (col : ℕ) : ℕ :=
  (List.range' (col + 1) (aug.length - (col + 1))).foldl
    (fun maxRow row => if |entry aug row col| > |entry aug maxRow col| then row else maxRow) col

/-- The destructuring swap `[aug[col], aug[maxRow]] = [aug[maxRow], aug[col]]`. -/
def swapRows (m : List (List ℚ)) (i j : ℕ) : List (List ℚ) :=
  (m.set i (m.getD j [])).set j (m.getD i [])

/-- Scale the pivot row: `augmented[col][j] /= pivot` (the pivot is saved in a
const before the loop, so every entry is divided by the original value). -/
def gjScale (a1 : List (List ℚ)) (col : ℕ) : List (List ℚ) :=
  a1.set col ((a1.getD col []).map (fun v => v / entry a1 col col))

/-- Eliminate the pivot column from every other row:
`factor = augmented[row][col]`, `augmented[row][j] -= factor * augmented[col][j]`. -/
def gjElim (a2 : List (List ℚ)) (col : ℕ) : List (List ℚ) :=
  (List.range a2.length).map (fun r =>
    if r = col then a2.getD r []
    else List.zipWith (fun x y => x - entry a2 r col * y) (a2.getD r []) (a2.getD col []))

/-- One column of the Gauss-Jordan loop of `matrixInverse`: find pivot, swap,
singularity check, scale the pivot row, eliminate the column from every other
row. -/
def gjStep (aug : List (List ℚ)) (col : ℕ) : Except JsErr (List (List ℚ)) :=
  let a1 := swapRows aug col (findPivotRow aug col)
  if |entry a1 col col| < tol then .error .singularMatrix
  else .ok (gjElim (gjScale a1 col) col)

/-- `[A | I]`: each row extended by the matching identity row. -/
def augmentIdentity (A : List (List ℚ)) : List (List ℚ) :=
  (List.range A.length).map (fun i =>
    A.getD i [] ++ (List.range A.length).map (fun j => if j = i then (1 : ℚ) else 0))

def matrixInverse (A : List (List ℚ)) : Except JsErr (List (List ℚ)) := do
  let final ← (List.range A.length).foldlM gjStep (augmentIdentity A)
  pure (final.map (fun row => row.drop A.length))

/-- One column of the forward elimination of `linearEquationSolver`: find
pivot, swap, no-unique-solution check, eliminate rows below the pivot at
columns `col ..` only. -/
def geStep (aug : List (List ℚ)) (col : ℕ) : Except JsErr (List (List ℚ)) :=
  let a1 := swapRows aug col (findPivotRow aug col)
  if |entry a1 col col| < tol then .error .noUniqueSolution
  else
    .ok ((List.range a1.length).map (fun r =>
      if r ≤ col then a1.getD r []
      else
        (List.range (a1.getD r []).length).map (fun j =>
          if j < col then entry a1 r j
          else entry a1 r j - entry a1 r col / entry a1 col col * entry a1 col j)))

/-- `[A | b]`. -/
def augmentVec (A : List (List ℚ)) (b : List ℚ) : List (List ℚ) :=
  (List.range A.length).map (fun i => A.getD i [] ++ [b.getD i 0])

/-- The back-substitution values: `x[i] = (aug[i][n] - Σ_{j>i} aug[i][j]·x[j]) / aug[i][i]`,
computed (as in the downward source loop) from later entries. -/
def xVal (aug : List (List ℚ)) (n : ℕ) (i : ℕ) : ℚ :=
  (entry aug i n -
    ∑ j in (Finset.Ico (i + 1) n).attach, entry aug i j.1 * xVal aug n j.1) / entry aug i i
termination_by n - i
decreasing_by
  have hj := j.2
  simp only [Finset.mem_Ico] at hj
  omega

def linearEquationSolver (A : List (List ℚ)) (b : List ℚ) : Except JsErr (List ℚ) := do
  let final ← (List.range A.length).foldlM geStep (augmentVec A b)
  pure ((List.range A.length).map (fun i => xVal final A.length i))

/-- `m[r][c] = v`. -/
def setEntry (m : List (List ℚ)) (r c : ℕ) (v : ℚ) : List (List ℚ) :=
  m.set r ((m.getD r []).set c v)

def zerosMatrix (n : ℕ) : List (List ℚ) :=
  (List.range n).map (fun _ => (List.range n).map (fun _ => (0 : ℚ)))

/-- The body of the upper-triangular loop of `luDecomposition` at column `j`:
`U[i][j] = A[i][j] - Σ_{k<i} L[i][k]·U[k][j]` (reading the partially updated
`U` carried by the fold, exactly as the in-place source does). -/
def upperUpd (A : List (List ℚ)) (j : ℕ) (L U2 : List (List ℚ)) (i : ℕ) : List (List ℚ) :=
  setEntry U2 i j (entry A i j -
    (List.range i).foldl (fun s k => s + entry L i k * entry U2 k j) 0)

/-- The body of the lower-triangular loop of `luDecomposition` at column `j`:
pivot check, then `L[i][j] = (A[i][j] - Σ_{k<j} L[i][k]·U[k][j]) / U[j][j]`. -/
def lowerUpd (A : List (List ℚ)) (j : ℕ) (U1 L : List (List ℚ)) (i : ℕ) :
    Except JsErr (List (List ℚ)) :=
  if |entry U1 j j| < tol then .error .zeroPivot
  else .ok (setEntry L i j ((entry A i j -
    (List.range j).foldl (fun s k => s + entry L i k * entry U1 k j) 0) / entry U1 j j))

/-- One column `j` of `luDecomposition`: the upper-triangular pass writes
`U[i][j]` for `i ≤ j`, then the lower-triangular pass checks the pivot and
writes `L[i][j]` for `i > j`. -/
def luStep (A : List (List ℚ)) (n : ℕ) (LU : List (List ℚ) × List (List ℚ)) (j : ℕ) :
    Except JsErr (List (List ℚ) × List (List ℚ)) := do
  let U1 := (List.range (j + 1)).foldl (upperUpd A j LU.1) LU.2
  let L1 ← (List.range' (j + 1) (n - (j + 1))).foldlM (lowerUpd A j U1) LU.1
  pure (L1, U1)

/-- `L` starts as zeros with unit diagonal (i.e. the identity), `U` as zeros. -/
def luDecomposition (A : List (List ℚ)) : Except JsErr (List (List ℚ) × List (List ℚ)) :=
  (List.range A.length).foldlM (luStep A A.length) (identityMatrix A.length, zerosMatrix A.length)

mutual

/-- The Doolittle recursion from the spec:
`U[i][j] = A[i][j] − Σ_{k<i} L[i][k]·U[k][j]`. -/
def Uent (A : List (List ℚ)) (i j : ℕ) : ℚ :=
  entry A i j - ∑ k in (Finset.range i).attach, Lent A i k.1 * Uent A k.1 j
termination_by 2 * i
decreasing_by
  · have hk := k.2
    simp only [Finset.mem_range] at hk
    omega
  · have hk := k.2
    simp only [Finset.mem_range] at hk
    omega

/-- The Doolittle recursion from the spec:
`L[i][j] = (A[i][j] − Σ_{k<j} L[i][k]·U[k][j]) / U[j][j]`. -/
def Lent (A : List (List ℚ)) (i j : ℕ) : ℚ :=
  (entry A i j - ∑ k in (Finset.range j).attach, Lent A i k.1 * Uent A k.1 j) / Uent A j j
termination_by 2 * j + 1
decreasing_by
  · have hk := k.2
    simp only [Finset.mem_range] at hk
    omega
  · have hk := k.2
    simp only [Finset.mem_range] at hk
    omega
  · omega

end

/-- Cofactor expansion along the first row.  The `length < 3` branch returns 0:
for the empty matrix the source's `for` loop body never runs and `det = 0`. -/
def matrixDeterminant (M : List (List ℚ)) : ℚ :=
  if M.length = 1 then entry M 0 0
  else if M.length = 2 then entry M 0 0 * entry M 1 1 - entry M 0 1 * entry M 1 0
  else if h3 : M.length < 3 then 0
  else ((List.range M.length).map (fun col =>
    (if col % 2 = 0 then (1 : ℚ) else -1) * entry M 0 col *
      matrixDeterminant ((M.drop 1).map (fun row => row.eraseIdx col)))).sum
termination_by M.length
decreasing_by
  simp only [List.length_map, List.length_drop]
  omega

/-! ### signalProcessing.js: fft / ifft / imageRotation over ℝ -/

/-- Even-indexed elements (`i % 2 === 0` branch of the split loop). -/
def evens {α : Type} : List α → List α
  | [] => []
  | [a] => [a]
  | a :: _ :: rest => a :: evens rest

/-- Odd-indexed elements (`else` branch of the split loop). -/
def odds {α : Type} : List α → List α
  | [] => []
  | [_] => []
  | _ :: b :: rest => b :: odds rest

/-- `{real, imag}` pair returned by `fft`. -/
structure Spectrum where
  real : List ℝ
  imag : List ℝ

/-- `Math.round` on a real: `⌊x + 1/2⌋`. -/
noncomputable def jsRoundR (x : ℝ) : ℤ := ⌊x + 1/2⌋

def entryR (m : List (List ℝ)) (r c : ℕ) : ℝ := (m.getD r []).getD c 0

/-- The combine loop of `fft`: for `k < n/2`,
`X[k] = E[k] + W·O[k]` and `X[k+n/2] = E[k] − W·O[k]` with twiddle factor
`W = e^{-2πik/n}` split into real (`cos·or − sin·oi`) and imaginary
(`cos·oi + sin·or`) parts. -/
noncomputable def fftCombine (n : ℕ) (ev od : Spectrum) : Spectrum where
  real := (List.range (n / 2)).map (fun k =>
      ev.real.getD k 0 + (Real.cos (-2 * Real.pi * k / n) * od.real.getD k 0 -
        Real.sin (-2 * Real.pi * k / n) * od.imag.getD k 0)) ++
    (List.range (n / 2)).map (fun k =>
      ev.real.getD k 0 - (Real.cos (-2 * Real.pi * k / n) * od.real.getD k 0 -
        Real.sin (-2 * Real.pi * k / n) * od.imag.getD k 0))
  imag := (List.range (n / 2)).map (fun k =>
      ev.imag.getD k 0 + (Real.cos (-2 * Real.pi * k / n) * od.imag.getD k 0 +
        Real.sin (-2 * Real.pi * k / n) * od.real.getD k 0)) ++
    (List.range (n / 2)).map (fun k =>
      ev.imag.getD k 0 - (Real.cos (-2 * Real.pi * k / n) * od.imag.getD k 0 +
        Real.sin (-2 * Real.pi * k / n) * od.real.getD k 0))

/-- `fft` with a fuel bound on the recursion depth.  With length-0 input the
source recurses on two empty halves forever (JavaScript dies with a
stack-overflow RangeError); any fuel bound reproduces that as
`JsErr.stackOverflow`.  For every nonempty input the recursion depth is at
most the length, so the fuel used by `fft` below never runs out. -/
noncomputable def fftF : ℕ → List ℝ → Except JsErr Spectrum
  | 0, _ => .error .stackOverflow
  | fuel + 1, x =>
    if x.length = 1 then .ok { real := [x.headD 0], imag := [0] }
    else if x.length % 2 ≠ 0 then .error .invalidLength
    else
      match fftF fuel (evens x), fftF fuel (odds x) with
      | .ok ev, .ok od => .ok (fftCombine x.length ev od)
      | .error e, _ => .error e
      | .ok _, .error e => .error e

noncomputable def fft (x : List ℝ) : Except JsErr Spectrum := fftF (x.length + 1) x

/-- `len(x)` is 1 or a power of two. -/
def IsPow2 (n : ℕ) : Prop := ∃ k, n = 2 ^ k

/-- `ifft`: conjugate computed but unused; forward `fft` applied to (a copy
of) the real component only; result scaled by `1/n`. -/
noncomputable def ifft (X : Spectrum) : Except JsErr (List ℝ) :=
  let _conjugateImag := X.imag.map (fun v => -v)
  (fft (X.real.map (fun r => r))).map
    (fun result => result.real.map (fun v => v / (X.real.length : ℝ)))

/-- `imageRotation`: inverse mapping about the image centre with
nearest-neighbour rounding; out-of-bounds sources give 0.  An empty image
throws a TypeError at `image[0].length`. -/
noncomputable def imageRotation (image : List (List ℝ)) (angleDegrees : ℝ) :
    Except JsErr (List (List ℝ)) :=
  match image with
  | [] => .error .typeError
  | _ =>
    let rows := image.length
    let cols := (image.headD []).length
    let c := Real.cos (angleDegrees * Real.pi / 180)
    let s := Real.sin (angleDegrees * Real.pi / 180)
    .ok ((List.range rows).map (fun (y : ℕ) =>
      (List.range cols).map (fun (x : ℕ) =>
        let srcX := c * ((x : ℝ) - (cols : ℝ) / 2) + s * ((y : ℝ) - (rows : ℝ) / 2) + (cols : ℝ) / 2
        let srcY := -s * ((x : ℝ) - (cols : ℝ) / 2) + c * ((y : ℝ) - (rows : ℝ) / 2) + (rows : ℝ) / 2
        if 0 ≤ jsRoundR srcX ∧ jsRoundR srcX < (cols : ℤ) ∧
            0 ≤ jsRoundR srcY ∧ jsRoundR srcY < (rows : ℤ) then
          entryR image (jsRoundR srcY).toNat (jsRoundR srcX).toNat
        else 0)))

/-! ### C7: determinant of the identity matrix -/

theorem sum_map_range (f : ℕ → ℚ) (m : ℕ) :
    ((List.range m).map f).sum = ∑ col in Finset.range m, f col := by
  induction m with
  | zero => simp
  | succ m ih =>
    rw [List.range_succ, List.map_append, List.sum_append, ih, Finset.sum_range_succ]
    simp

theorem entry_identityMatrix (n i j : ℕ) :
    entry (identityMatrix n) i j = if i < n ∧ j < n ∧ j = i then 1 else 0 := by
  rw [identityMatrix, entry, getD_map_range]
  by_cases hi : i < n
  · rw [if_pos hi, getD_map_range]
    by_cases hj : j < n
    · rw [if_pos hj]
      by_cases e : j = i <;> simp [hi, hj, e]
    · rw [if_neg hj]
      simp [hj]
  · rw [if_neg hi]
    simp [List.getD_nil, hi]

theorem length_identityMatrix (n : ℕ) : (identityMatrix n).length = n := by
  simp [identityMatrix]

/-- Deleting row 0 and column 0 of `identityMatrix (n+1)` gives `identityMatrix n`. -/
theorem identity_minor (n : ℕ) :
    ((identityMatrix (n + 1)).drop 1).map (fun row => row.eraseIdx 0) = identityMatrix n := by
  simp only [identityMatrix]
  rw [List.range_succ_eq_map, List.map_cons, List.drop_succ_cons, List.drop_zero,
    List.map_map, List.map_map]
  refine List.map_congr_left (fun i _ => ?_)
  simp only [Function.comp_apply]
  rw [List.map_cons, show ∀ (x : ℚ) (t : List ℚ), (x :: t).eraseIdx 0 = t from fun x t => rfl,
    List.map_map]
  refine List.map_congr_left (fun j _ => ?_)
  simp only [Function.comp_apply]
  exact if_congr (by omega) rfl rfl

theorem det_identity_succ (n : ℕ) :
    matrixDeterminant (identityMatrix (n + 3)) = matrixDeterminant (identityMatrix (n + 2)) := by
  have hlen : (identityMatrix (n + 3)).length = n + 3 := length_identityMatrix (n + 3)
  rw [matrixDeterminant, hlen]
  rw [if_neg (by omega), if_neg (by omega), dif_neg (by omega)]
  rw [sum_map_range]
  rw [Finset.sum_eq_single_of_mem 0 (Finset.mem_range.mpr (by omega))]
  · rw [entry_identityMatrix]
    rw [show n + 3 = (n + 2) + 1 from rfl, identity_minor]
    norm_num
  · intro b _ hb0
    simp [entry_identityMatrix, hb0]

theorem det_identity_one : matrixDeterminant (identityMatrix 1) = 1 := by
  have h : identityMatrix 1 = [[1]] := by
    simp [identityMatrix, show List.range 1 = [0] from by decide]
  rw [h, matrixDeterminant]
  norm_num [entry]

theorem det_identity_two : matrixDeterminant (identityMatrix 2) = 1 := by
  have h : identityMatrix 2 = [[1, 0], [0, 1]] := by
    simp [identityMatrix, show List.range 2 = [0, 1] from by decide]
  rw [h, matrixDeterminant]
  norm_num [entry]

/-- C7 counterexample: `identityMatrix 0` is `[]`, and on `[]` the cofactor
loop never runs, so `matrixDeterminant` returns the initial accumulator `0`,
not `1`. -/
theorem claim_C7_cex :
    matrixDeterminant (identityMatrix 0) = 0 ∧ (0 : ℚ) ≠ 1 := by
  constructor
  · have h : identityMatrix 0 = [] := by simp [identityMatrix]
    rw [h, matrixDeterminant]
    norm_num
  · norm_num

/-- C7 (amended: for every `n ≥ 1`): `matrixDeterminant (identityMatrix n) = 1`. -/
theorem claim_C7 (n : ℕ) (h : 1 ≤ n) : matrixDeterminant (identityMatrix n) = 1 := by
  induction n using Nat.strong_induction_on with
  | _ n ih =>
    match n, h with
    | 1, _ => exact det_identity_one
    | 2, _ => exact det_identity_two
    | (m + 3), _ =>
      rw [det_identity_succ]
      exact ih (m + 2) (by omega) (by omega)

/-- C7 witness: the amended theorem applied at `n = 3`. -/
theorem claim_C7_witness : 1 ≤ 3 ∧ matrixDeterminant (identityMatrix 3) = 1 :=
  ⟨by decide, claim_C7 3 (by decide)⟩

/-! ### C10: rotation by 0 degrees -/

theorem floor_half : ⌊(1 : ℝ) / 2⌋ = 0 := by
  rw [Int.floor_eq_zero_iff]
  constructor <;> norm_num

theorem jsRoundR_natCast (x : ℕ) : jsRoundR (x : ℝ) = x := by
  rw [jsRoundR, show ((x : ℝ) + 1 / 2) = 1 / 2 + ((x : ℤ) : ℝ) from by push_cast; ring,
    Int.floor_add_int, floor_half]
  omega

theorem getD_map_range_real {α : Type} (n : ℕ) (f : ℕ → α) (r : ℕ) (d : α) :
    ((List.range n).map f).getD r d = if r < n then f r else d :=
  getD_map_range n f r d

/-- Rebuilding a rectangular real matrix from its entries. -/
theorem rebuild_image (image : List (List ℝ))
    (hrect : ∀ row ∈ image, row.length = (image.headD []).length) :
    (List.range image.length).map (fun y =>
      (List.range (image.headD []).length).map (fun x => entryR image y x)) = image := by
  have step : ∀ y ∈ List.range image.length,
      (List.range (image.headD []).length).map (fun x => entryR image y x)
        = image.getD y [] := by
    intro y hy
    rw [List.mem_range] at hy
    have hlen : (image.getD y []).length = (image.headD []).length := by
      refine hrect _ ?_
      rw [List.getD_eq_getElem _ _ hy]
      exact List.getElem_mem hy
    rw [← hlen]
    exact map_range_getD (image.getD y []) 0
  rw [List.map_congr_left step]
  exact map_range_getD image []

/-- C10 counterexample: `imageRotation [] 0` throws a TypeError at
`image[0].length` instead of returning `[]`. -/
theorem claim_C10_cex :
    imageRotation [] 0 = .error .typeError ∧
    (Except.error JsErr.typeError : Except JsErr (List (List ℝ))) ≠ .ok [] := by
  exact ⟨rfl, fun h => Except.noConfusion h⟩

/-- C10 (amended: for every nonempty rectangular image): rotation by 0 degrees
is the identity, because `cos 0 = 1`, `sin 0 = 0` make the inverse mapping
send each destination pixel exactly to itself and rounding integer
coordinates is exact. -/
theorem claim_C10 (image : List (List ℝ)) (hne : image ≠ [])
    (hrect : ∀ row ∈ image, row.length = (image.headD []).length) :
    imageRotation image 0 = .ok image := by
  cases image with
  | nil => exact absurd rfl hne
  | cons a rest =>
    simp only [imageRotation]
    rw [show ((0 : ℝ) * Real.pi / 180) = 0 from by ring, Real.cos_zero, Real.sin_zero]
    refine congrArg Except.ok ?_
    refine Eq.trans ?_ (rebuild_image (a :: rest) hrect)
    refine List.map_congr_left (fun y hy => ?_)
    refine List.map_congr_left (fun x hx => ?_)
    rw [List.mem_range] at hy hx
    rw [show ∀ cx cy : ℝ, (1 : ℝ) * ((x : ℝ) - cx) + 0 * ((y : ℝ) - cy) + cx = (x : ℝ) from
      fun cx cy => by ring]
    rw [show ∀ cx cy : ℝ, -(0 : ℝ) * ((x : ℝ) - cx) + 1 * ((y : ℝ) - cy) + cy = (y : ℝ) from
      fun cx cy => by ring]
    rw [jsRoundR_natCast, jsRoundR_natCast]
    rw [if_pos ⟨Int.natCast_nonneg x, by exact_mod_cast hx, Int.natCast_nonneg y,
      by exact_mod_cast hy⟩]
    rw [Int.toNat_natCast, Int.toNat_natCast]

/-- C10 witness: the amended theorem applied at the 1×1 image `[[5]]`. -/
theorem claim_C10_witness :
    ([[5]] : List (List ℝ)) ≠ [] ∧ imageRotation [[5]] 0 = .ok [[5]] :=
  ⟨by simp, claim_C10 [[5]] (by simp)
    (by intro row hrow; simp only [List.mem_cons] at hrow
        rcases hrow with rfl | hrow
        · rfl
        · simp at hrow)⟩

/-! ### C2 and C8: fft error discipline and the ifft definition -/

theorem length_evens {α : Type} : ∀ l : List α, (evens l).length = (l.length + 1) / 2
  | [] => by simp [evens]
  | [_] => by simp [evens]
  | a :: b :: rest => by
    simp only [evens, List.length_cons, length_evens rest]
    omega

theorem length_odds {α : Type} : ∀ l : List α, (odds l).length = l.length / 2
  | [] => by simp [odds]
  | [_] => by simp [odds]
  | a :: b :: rest => by
    simp only [odds, List.length_cons, length_odds rest]
    omega

theorem isPow2_one : IsPow2 1 := ⟨0, rfl⟩

theorem not_isPow2_zero : ¬ IsPow2 0 := by
  rintro ⟨k, hk⟩
  have := Nat.two_pow_pos k
  omega

theorem not_isPow2_odd (n : ℕ) (h1 : n ≠ 1) (h2 : n % 2 = 1) : ¬ IsPow2 n := by
  rintro ⟨k, rfl⟩
  cases k with
  | zero => exact h1 rfl
  | succ k =>
    rw [pow_succ] at h2
    omega

theorem isPow2_half (n : ℕ) (hn : n ≠ 0) (h2 : n % 2 = 0) :
    IsPow2 n ↔ IsPow2 (n / 2) := by
  constructor
  · rintro ⟨k, rfl⟩
    cases k with
    | zero => omega
    | succ k =>
      refine ⟨k, ?_⟩
      rw [pow_succ]
      omega
  · rintro ⟨k, hk⟩
    refine ⟨k + 1, ?_⟩
    rw [pow_succ]
    omega

theorem fftF_spec : ∀ (fuel : ℕ) (x : List ℝ), x ≠ [] → x.length ≤ fuel →
    (IsPow2 x.length → ∃ S : Spectrum, fftF fuel x = .ok S ∧
      S.real.length = x.length ∧ S.imag.length = x.length) ∧
    (¬ IsPow2 x.length → fftF fuel x = .error .invalidLength) := by
  intro fuel
  induction fuel with
  | zero =>
    intro x hx hlen
    have : x.length = 0 := by omega
    exact absurd (List.eq_nil_of_length_eq_zero this) hx
  | succ fuel ih =>
    intro x hx hlen
    have hxpos : 0 < x.length := List.length_pos.mpr hx
    by_cases h1 : x.length = 1
    · constructor
      · intro _
        refine ⟨⟨[x.headD 0], [0]⟩, ?_, by simp [h1], by simp [h1]⟩
        simp only [fftF, if_pos h1]
      · intro hnp
        exact absurd (h1 ▸ isPow2_one) hnp
    · by_cases h2 : x.length % 2 = 0
      · -- even length ≥ 2: recurse
        have hn2 : 2 ≤ x.length := by omega
        have hev_len : (evens x).length = x.length / 2 := by
          rw [length_evens]
          omega
        have hod_len : (odds x).length = x.length / 2 := length_odds x
        have hhalf_pos : 0 < x.length / 2 := by omega
        have hev_ne : evens x ≠ [] := by
          intro hc
          rw [hc] at hev_len
          simp at hev_len
          omega
        have hod_ne : odds x ≠ [] := by
          intro hc
          rw [hc] at hod_len
          simp at hod_len
          omega
        have hev_fuel : (evens x).length ≤ fuel := by omega
        have hod_fuel : (odds x).length ≤ fuel := by omega
        have hiff := isPow2_half x.length (by omega) h2
        constructor
        · intro hp
          have hp2 : IsPow2 (x.length / 2) := hiff.mp hp
          obtain ⟨S1, hS1, hS1r, hS1i⟩ := (ih (evens x) hev_ne hev_fuel).1 (hev_len ▸ hp2)
          obtain ⟨S2, hS2, _, _⟩ := (ih (odds x) hod_ne hod_fuel).1 (hod_len ▸ hp2)
          refine ⟨fftCombine x.length S1 S2, ?_, ?_, ?_⟩
          · simp only [fftF, if_neg h1]
            rw [if_neg (by omega)]
            rw [hS1, hS2]
          · simp only [fftCombine, List.length_append, List.length_map, List.length_range]
            omega
          · simp only [fftCombine, List.length_append, List.length_map, List.length_range]
            omega
        · intro hnp
          have hnp2 : ¬ IsPow2 (x.length / 2) := fun hc => hnp (hiff.mpr hc)
          have herr := (ih (evens x) hev_ne hev_fuel).2 (hev_len ▸ hnp2)
          simp only [fftF, if_neg h1]
          rw [if_neg (by omega)]
          rw [herr]
      · -- odd length ≠ 1: invalid length
        have herr : fftF (fuel + 1) x = .error .invalidLength := by
          simp only [fftF, if_neg h1]
          rw [if_pos (by omega)]
        constructor
        · intro hp
          exact absurd hp (not_isPow2_odd x.length h1 (by omega))
        · intro _
          exact herr

/-- Any amount of fuel: on the empty list `fftF` recurses on two empty halves
and exhausts its fuel, reproducing the unbounded recursion of the source. -/
theorem fftF_nil (fuel : ℕ) : fftF fuel [] = .error .stackOverflow := by
  induction fuel with
  | zero => rfl
  | succ fuel ih => simp [fftF, evens, odds, ih]

/-- C2 counterexample: on the empty list (length 0, not a power of two) `fft`
does not raise InvalidLength: the source recurses forever on two empty
halves (a stack-overflow RangeError in JavaScript). -/
theorem claim_C2_cex :
    fft [] = .error .stackOverflow ∧
    (Except.error JsErr.stackOverflow : Except JsErr Spectrum) ≠ .error .invalidLength ∧
    ¬ IsPow2 (List.length ([] : List ℝ)) := by
  refine ⟨fftF_nil 1, ?_, by simpa using not_isPow2_zero⟩
  intro h
  injection h with h2
  exact JsErr.noConfusion h2

/-- C2 (amended: for every nonempty input list): `fft x` raises InvalidLength
iff `len(x)` is not 1 and not a power of two, and on power-of-two lengths it
returns `{real, imag}` with both components of length `len(x)` (the
Cooley-Tukey even/odd recursion with twiddle factors `e^{-2πik/n}` is the
definition of `fftF`/`fftCombine`). -/
theorem claim_C2 (x : List ℝ) (hx : x ≠ []) :
    (fft x = .error .invalidLength ↔ ¬ IsPow2 x.length) ∧
    (IsPow2 x.length → ∃ S : Spectrum, fft x = .ok S ∧
      S.real.length = x.length ∧ S.imag.length = x.length) := by
  have hspec := fftF_spec (x.length + 1) x hx (by omega)
  constructor
  · constructor
    · intro herr
      intro hp
      obtain ⟨S, hS, _, _⟩ := hspec.1 hp
      rw [fft] at herr
      rw [herr] at hS
      exact Except.noConfusion hS
    · intro hnp
      exact hspec.2 hnp
  · exact hspec.1

/-- C2 witness: the amended theorem applied at `x = [1,1,1,1]`. -/
theorem claim_C2_witness :
    ([(1 : ℝ), 1, 1, 1] ≠ []) ∧
    ((fft [(1 : ℝ), 1, 1, 1] = .error .invalidLength ↔ ¬ IsPow2 ([(1 : ℝ), 1, 1, 1].length)) ∧
     (IsPow2 ([(1 : ℝ), 1, 1, 1].length) → ∃ S : Spectrum, fft [(1 : ℝ), 1, 1, 1] = .ok S ∧
       S.real.length = ([(1 : ℝ), 1, 1, 1].length) ∧
       S.imag.length = ([(1 : ℝ), 1, 1, 1].length))) :=
  ⟨by simp, claim_C2 [1, 1, 1, 1] (by simp)⟩

/-- C8: `ifft` is the forward transform of the real component scaled by `1/n`;
the imaginary component of the input has no effect (the conjugation is
computed but discarded). -/
theorem claim_C8 (re : List ℝ) (S : Spectrum) (h : fft re = .ok S) :
    (∀ im : List ℝ, ifft ⟨re, im⟩ = .ok (S.real.map (fun v => v / (re.length : ℝ)))) ∧
    (∀ im1 im2 : List ℝ, ifft ⟨re, im1⟩ = ifft ⟨re, im2⟩) := by
  constructor
  · intro im
    rw [ifft]
    simp only [List.map_id']
    rw [h]
    rfl
  · intro im1 im2
    rfl

/-- C8 witness: at `re = [5]` (a length the fft accepts via its base case). -/
theorem claim_C8_witness :
    fft [(5 : ℝ)] = .ok ⟨[5], [0]⟩ ∧
    ((∀ im : List ℝ, ifft ⟨[(5 : ℝ)], im⟩ =
        .ok ((Spectrum.mk [5] [0]).real.map (fun v => v / (([(5 : ℝ)].length : ℕ) : ℝ)))) ∧
     (∀ im1 im2 : List ℝ, ifft ⟨[(5 : ℝ)], im1⟩ = ifft ⟨[(5 : ℝ)], im2⟩)) :=
  ⟨rfl, claim_C8 [5] ⟨[5], [0]⟩ rfl⟩

/-! ### C3: partial pivoting and the tolerance-based failure discipline -/

theorem pivot_fold_ge (aug : List (List ℚ)) (col : ℕ) :
    ∀ (L : List ℕ) (m : ℕ),
      |entry aug m col| ≤
        |entry aug (L.foldl (fun maxRow row =>
          if |entry aug row col| > |entry aug maxRow col| then row else maxRow) m) col| ∧
      ∀ r ∈ L, |entry aug r col| ≤
        |entry aug (L.foldl (fun maxRow row =>
          if |entry aug row col| > |entry aug maxRow col| then row else maxRow) m) col| := by
  intro L
  induction L with
  | nil =>
    intro m
    refine ⟨le_refl _, ?_⟩
    intro r hr
    simp at hr
  | cons a L ih =>
    intro m
    rw [List.foldl_cons]
    have step_ge_m : |entry aug m col| ≤
        |entry aug (if |entry aug a col| > |entry aug m col| then a else m) col| := by
      by_cases hc : |entry aug a col| > |entry aug m col|
      · rw [if_pos hc]; exact le_of_lt hc
      · rw [if_neg hc]
    have step_ge_a : |entry aug a col| ≤
        |entry aug (if |entry aug a col| > |entry aug m col| then a else m) col| := by
      by_cases hc : |entry aug a col| > |entry aug m col|
      · rw [if_pos hc]
      · rw [if_neg hc]; exact le_of_not_lt hc
    refine ⟨le_trans step_ge_m (ih _).1, fun r hr => ?_⟩
    rcases List.mem_cons.mp hr with rfl | hr2
    · exact le_trans step_ge_a (ih _).1
    · exact (ih _).2 r hr2

theorem pivot_fold_mem (aug : List (List ℚ)) (col : ℕ) :
    ∀ (L : List ℕ) (m : ℕ),
      (L.foldl (fun maxRow row =>
        if |entry aug row col| > |entry aug maxRow col| then row else maxRow) m) = m ∨
      (L.foldl (fun maxRow row =>
        if |entry aug row col| > |entry aug maxRow col| then row else maxRow) m) ∈ L := by
  intro L
  induction L with
  | nil => exact fun m => Or.inl rfl
  | cons a L ih =>
    intro m
    rw [List.foldl_cons]
    rcases ih (if |entry aug a col| > |entry aug m col| then a else m) with h | h
    · rw [h]
      by_cases hc : |entry aug a col| > |entry aug m col|
      · rw [if_pos hc]; exact Or.inr (List.mem_cons_self a L)
      · rw [if_neg hc]; exact Or.inl rfl
    · exact Or.inr (List.mem_cons_of_mem a h)

theorem findPivotRow_bounds (aug : List (List ℚ)) (col : ℕ) (h : col < aug.length) :
    col ≤ findPivotRow aug col ∧ findPivotRow aug col < aug.length := by
  rw [findPivotRow]
  rcases pivot_fold_mem aug col (List.range' (col + 1) (aug.length - (col + 1))) col with hm | hm
  · rw [hm]
    exact ⟨le_refl col, h⟩
  · rw [List.mem_range'_1] at hm
    omega

theorem findPivotRow_argmax (aug : List (List ℚ)) (col : ℕ) (h : col < aug.length) :
    ∀ r, col ≤ r → r < aug.length →
      |entry aug r col| ≤ |entry aug (findPivotRow aug col) col| := by
  intro r hr1 hr2
  rw [findPivotRow]
  rcases Nat.eq_or_lt_of_le hr1 with rfl | hgt
  · exact (pivot_fold_ge aug col (List.range' (col + 1) (aug.length - (col + 1))) col).1
  · refine (pivot_fold_ge aug col (List.range' (col + 1) (aug.length - (col + 1))) col).2 r ?_
    rw [List.mem_range'_1]
    omega

theorem gjStep_error_iff (aug : List (List ℚ)) (col : ℕ) :
    gjStep aug col = .error .singularMatrix ↔
      |entry (swapRows aug col (findPivotRow aug col)) col col| < tol := by
  rw [gjStep]
  by_cases hc : |entry (swapRows aug col (findPivotRow aug col)) col col| < tol
  · simp [hc]
  · simp [hc]

theorem geStep_error_iff (aug : List (List ℚ)) (col : ℕ) :
    geStep aug col = .error .noUniqueSolution ↔
      |entry (swapRows aug col (findPivotRow aug col)) col col| < tol := by
  rw [geStep]
  by_cases hc : |entry (swapRows aug col (findPivotRow aug col)) col col| < tol
  · simp [hc]
  · simp [hc]

theorem gjStep_cases (aug : List (List ℚ)) (col : ℕ) :
    gjStep aug col = .error .singularMatrix ∨ ∃ b, gjStep aug col = .ok b := by
  rw [gjStep]
  by_cases hc : |entry (swapRows aug col (findPivotRow aug col)) col col| < tol
  · simp [hc]
  · simp [hc]

theorem geStep_cases (aug : List (List ℚ)) (col : ℕ) :
    geStep aug col = .error .noUniqueSolution ∨ ∃ b, geStep aug col = .ok b := by
  rw [geStep]
  by_cases hc : |entry (swapRows aug col (findPivotRow aug col)) col col| < tol
  · simp [hc]
  · simp [hc]

theorem foldlM_error_only (step : List (List ℚ) → ℕ → Except JsErr (List (List ℚ)))
    (e0 : JsErr) (honly : ∀ a c, step a c = .error e0 ∨ ∃ b, step a c = .ok b) :
    ∀ (L : List ℕ) (a0 : List (List ℚ)) (e : JsErr),
      L.foldlM step a0 = .error e → e = e0 := by
  intro L
  induction L with
  | nil =>
    intro a0 e h
    rw [List.foldlM_nil] at h
    exact absurd h (fun hc => Except.noConfusion hc)
  | cons b L ih =>
    intro a0 e h
    rw [List.foldlM_cons] at h
    rcases honly a0 b with hb | ⟨a1, hb⟩
    · rw [hb] at h
      injection h with h2
      exact h2.symm ▸ rfl
    · rw [hb] at h
      exact ih a1 e h

theorem foldlM_range'_error_iff (step : List (List ℚ) → ℕ → Except JsErr (List (List ℚ)))
    (e0 : JsErr) (hdec : ∀ a c, step a c = .error e0 ∨ ∃ b, step a c = .ok b) :
    ∀ (m s : ℕ) (a0 : List (List ℚ)),
      ((List.range' s m).foldlM step a0 = .error e0 ↔
        ∃ k, s ≤ k ∧ k < s + m ∧ ∃ a1,
          (List.range' s (k - s)).foldlM step a0 = .ok a1 ∧ step a1 k = .error e0) := by
  intro m
  induction m with
  | zero =>
    intro s a0
    constructor
    · intro h
      rw [show List.range' s 0 = [] from rfl, List.foldlM_nil] at h
      exact absurd h (fun hc => Except.noConfusion hc)
    · rintro ⟨k, hk1, hk2, _⟩
      omega
  | succ m ih =>
    intro s a0
    rw [List.range'_succ, List.foldlM_cons]
    rcases hdec a0 s with hs | ⟨b, hs⟩
    · rw [hs]
      constructor
      · intro _
        refine ⟨s, le_refl s, by omega, a0, ?_, hs⟩
        rw [show s - s = 0 from by omega, show List.range' s 0 = [] from rfl, List.foldlM_nil]
        rfl
      · intro _
        rfl
    · rw [hs]
      rw [show ((Except.ok b : Except JsErr (List (List ℚ))) >>= fun x =>
        (List.range' (s + 1) m).foldlM step x) = (List.range' (s + 1) m).foldlM step b from rfl]
      rw [ih (s + 1) b]
      constructor
      · rintro ⟨k, hk1, hk2, a1, hfold, hstep⟩
        refine ⟨k, by omega, by omega, a1, ?_, hstep⟩
        rw [show k - s = (k - (s + 1)) + 1 from by omega, List.range'_succ, List.foldlM_cons,
          hs]
        rw [show ((Except.ok b : Except JsErr (List (List ℚ))) >>= fun x =>
          (List.range' (s + 1) (k - (s + 1))).foldlM step x)
          = (List.range' (s + 1) (k - (s + 1))).foldlM step b from rfl]
        exact hfold
      · rintro ⟨k, hk1, hk2, a1, hfold, hstep⟩
        rcases Nat.eq_or_lt_of_le hk1 with rfl | hgt
        · rw [show s - s = 0 from by omega, show List.range' s 0 = [] from rfl,
            List.foldlM_nil] at hfold
          injection hfold with h2
          rw [← h2] at hstep
          rw [hstep] at hs
          exact absurd hs (fun hc => Except.noConfusion hc)
        · refine ⟨k, by omega, by omega, a1, ?_, hstep⟩
          rw [show k - s = (k - (s + 1)) + 1 from by omega, List.range'_succ,
            List.foldlM_cons, hs] at hfold
          rw [show ((Except.ok b : Except JsErr (List (List ℚ))) >>= fun x =>
            (List.range' (s + 1) (k - (s + 1))).foldlM step x)
            = (List.range' (s + 1) (k - (s + 1))).foldlM step b from rfl] at hfold
          exact hfold

theorem except_bind_ok {α β : Type} (a : α) (g : α → Except JsErr β) :
    ((Except.ok a : Except JsErr α) >>= g) = g a := rfl

theorem except_bind_error {α β : Type} (e : JsErr) (g : α → Except JsErr β) :
    ((Except.error e : Except JsErr α) >>= g) = Except.error e := rfl

theorem matrixInverse_error_iff (A : List (List ℚ)) :
    matrixInverse A = .error .singularMatrix ↔
      ∃ k, k < A.length ∧ ∃ aug1,
        (List.range' 0 k).foldlM gjStep (augmentIdentity A) = .ok aug1 ∧
        |entry (swapRows aug1 k (findPivotRow aug1 k)) k k| < tol := by
  have hiff := foldlM_range'_error_iff gjStep .singularMatrix gjStep_cases
    A.length 0 (augmentIdentity A)
  simp only [Nat.zero_add, Nat.sub_zero, Nat.zero_le, true_and] at hiff
  have hmain : matrixInverse A = .error .singularMatrix ↔
      (List.range' 0 A.length).foldlM gjStep (augmentIdentity A) = .error .singularMatrix := by
    rw [matrixInverse, List.range_eq_range']
    cases hfold : (List.range' 0 A.length).foldlM gjStep (augmentIdentity A) with
    | error e =>
      have he := foldlM_error_only gjStep .singularMatrix gjStep_cases
        (List.range' 0 A.length) (augmentIdentity A) e hfold
      subst he
      constructor <;> (intro _; rfl)
    | ok f =>
      rw [except_bind_ok]
      constructor
      · intro h
        exact Except.noConfusion h
      · intro h
        exact Except.noConfusion h
  rw [hmain, hiff]
  exact exists_congr (fun k => and_congr_right (fun _ => exists_congr (fun a1 =>
    and_congr_right (fun _ => gjStep_error_iff a1 k))))

theorem linearEquationSolver_error_iff (A : List (List ℚ)) (b : List ℚ) :
    linearEquationSolver A b = .error .noUniqueSolution ↔
      ∃ k, k < A.length ∧ ∃ aug1,
        (List.range' 0 k).foldlM geStep (augmentVec A b) = .ok aug1 ∧
        |entry (swapRows aug1 k (findPivotRow aug1 k)) k k| < tol := by
  have hiff := foldlM_range'_error_iff geStep .noUniqueSolution geStep_cases
    A.length 0 (augmentVec A b)
  simp only [Nat.zero_add, Nat.sub_zero, Nat.zero_le, true_and] at hiff
  have hmain : linearEquationSolver A b = .error .noUniqueSolution ↔
      (List.range' 0 A.length).foldlM geStep (augmentVec A b) = .error .noUniqueSolution := by
    rw [linearEquationSolver, List.range_eq_range']
    cases hfold : (List.range' 0 A.length).foldlM geStep (augmentVec A b) with
    | error e =>
      have he := foldlM_error_only geStep .noUniqueSolution geStep_cases
        (List.range' 0 A.length) (augmentVec A b) e hfold
      subst he
      constructor <;> (intro _; rfl)
    | ok f =>
      rw [except_bind_ok]
      constructor
      · intro h
        exact Except.noConfusion h
      · intro h
        exact Except.noConfusion h
  rw [hmain, hiff]
  exact exists_congr (fun k => and_congr_right (fun _ => exists_congr (fun a1 =>
    and_congr_right (fun _ => geStep_error_iff a1 k))))

theorem matrixInverse_total (A : List (List ℚ)) :
    matrixInverse A = .error .singularMatrix ∨ ∃ M, matrixInverse A = .ok M := by
  rw [matrixInverse]
  cases hfold : (List.range A.length).foldlM gjStep (augmentIdentity A) with
  | error e =>
    have he := foldlM_error_only gjStep .singularMatrix gjStep_cases
      (List.range A.length) (augmentIdentity A) e hfold
    subst he
    exact Or.inl rfl
  | ok f =>
    rw [except_bind_ok]
    exact Or.inr ⟨List.map (fun row => List.drop A.length row) f, rfl⟩

theorem linearEquationSolver_total (A : List (List ℚ)) (b : List ℚ) :
    linearEquationSolver A b = .error .noUniqueSolution ∨
      ∃ x, linearEquationSolver A b = .ok x := by
  rw [linearEquationSolver]
  cases hfold : (List.range A.length).foldlM geStep (augmentVec A b) with
  | error e =>
    have he := foldlM_error_only geStep .noUniqueSolution geStep_cases
      (List.range A.length) (augmentVec A b) e hfold
    subst he
    exact Or.inl rfl
  | ok f =>
    rw [except_bind_ok]
    exact Or.inr ⟨(List.range A.length).map (fun i => xVal f A.length i), rfl⟩

/-- C3: (i) the pivot search selects a row in `[col, n)` maximising the
absolute value in the pivot column; (ii) `matrixInverse`'s per-column step
fails with SingularMatrix exactly when the selected (swapped-in) pivot's
magnitude is below 1e-10, and `linearEquationSolver`'s step fails with
NoUniqueSolution under the same rule; (iii) the whole functions fail exactly
when some reachable elimination state has a sub-tolerance selected pivot;
(iv) in the failing case no result matrix or vector is produced (the exact
model returns only the designated error, never a degenerate value). -/
theorem claim_C3 :
    (∀ aug col, col < aug.length →
      (col ≤ findPivotRow aug col ∧ findPivotRow aug col < aug.length) ∧
      ∀ r, col ≤ r → r < aug.length →
        |entry aug r col| ≤ |entry aug (findPivotRow aug col) col|) ∧
    (∀ aug col, gjStep aug col = .error .singularMatrix ↔
      |entry (swapRows aug col (findPivotRow aug col)) col col| < tol) ∧
    (∀ aug col, geStep aug col = .error .noUniqueSolution ↔
      |entry (swapRows aug col (findPivotRow aug col)) col col| < tol) ∧
    (∀ A, matrixInverse A = .error .singularMatrix ↔
      ∃ k, k < A.length ∧ ∃ aug1,
        (List.range' 0 k).foldlM gjStep (augmentIdentity A) = .ok aug1 ∧
        |entry (swapRows aug1 k (findPivotRow aug1 k)) k k| < tol) ∧
    (∀ A b, linearEquationSolver A b = .error .noUniqueSolution ↔
      ∃ k, k < A.length ∧ ∃ aug1,
        (List.range' 0 k).foldlM geStep (augmentVec A b) = .ok aug1 ∧
        |entry (swapRows aug1 k (findPivotRow aug1 k)) k k| < tol) ∧
    (∀ A, matrixInverse A = .error .singularMatrix ∨ ∃ M, matrixInverse A = .ok M) ∧
    (∀ A b, linearEquationSolver A b = .error .noUniqueSolution ∨
      ∃ x, linearEquationSolver A b = .ok x) :=
  ⟨fun aug col h => ⟨findPivotRow_bounds aug col h, findPivotRow_argmax aug col h⟩,
   gjStep_error_iff, geStep_error_iff, matrixInverse_error_iff,
   linearEquationSolver_error_iff, matrixInverse_total, linearEquationSolver_total⟩

/-- C3 witness: the pivoting part applied at a concrete state and column. -/
theorem claim_C3_witness :
    ((0 : ℕ) < ([[1, 2], [3, 4]] : List (List ℚ)).length) ∧
    (((0 : ℕ) ≤ findPivotRow [[1, 2], [3, 4]] 0 ∧
      findPivotRow [[1, 2], [3, 4]] 0 < ([[1, 2], [3, 4]] : List (List ℚ)).length) ∧
     ∀ r, 0 ≤ r → r < ([[1, 2], [3, 4]] : List (List ℚ)).length →
       |entry [[1, 2], [3, 4]] r 0| ≤ |entry [[1, 2], [3, 4]] (findPivotRow [[1, 2], [3, 4]] 0) 0|) :=
  ⟨by decide, claim_C3.1 [[1, 2], [3, 4]] 0 (by decide)⟩

/-! ### C5 and C9: LU decomposition -/

/-- `m` is an `n × n` matrix. -/
def SquareShape (n : ℕ) (m : List (List ℚ)) : Prop :=
  m.length = n ∧ ∀ r, r < n → (m.getD r []).length = n

/-- After processing columns `0 .. j-1`: below-diagonal entries of columns
`< j` hold the Doolittle values, the diagonal is 1, everything else is the
initial 0. -/
def LInv (A : List (List ℚ)) (n j : ℕ) (L : List (List ℚ)) : Prop :=
  ∀ i c, i < n → c < n →
    entry L i c = if c < j ∧ c < i then Lent A i c else if c = i then 1 else 0

/-- After processing columns `0 .. j-1`: on-or-above-diagonal entries of
columns `< j` hold the Doolittle values, everything else is the initial 0. -/
def UInv (A : List (List ℚ)) (n j : ℕ) (U : List (List ℚ)) : Prop :=
  ∀ i c, i < n → c < n → entry U i c = if i ≤ c ∧ c < j then Uent A i c else 0

theorem Uent_eq (A : List (List ℚ)) (i j : ℕ) :
    Uent A i j = entry A i j - ∑ k in Finset.range i, Lent A i k * Uent A k j := by
  rw [Uent]
  congr 1
  exact Finset.sum_attach (Finset.range i) (fun k => Lent A i k * Uent A k j)

theorem Lent_eq (A : List (List ℚ)) (i j : ℕ) :
    Lent A i j =
      (entry A i j - ∑ k in Finset.range j, Lent A i k * Uent A k j) / Uent A j j := by
  rw [Lent]
  congr 2
  exact Finset.sum_attach (Finset.range j) (fun k => Lent A i k * Uent A k j)

theorem entry_setEntry (m : List (List ℚ)) (r c : ℕ) (v : ℚ) (r2 c2 : ℕ) :
    entry (setEntry m r c v) r2 c2 =
      if r2 = r ∧ r < m.length ∧ c2 = c ∧ c < (m.getD r []).length then v
      else entry m r2 c2 := by
  rw [setEntry, entry, getD_set]
  by_cases h1 : r2 = r ∧ r < m.length
  · rw [if_pos h1]
    obtain ⟨rfl, hr⟩ := h1
    rw [getD_set]
    by_cases h2 : c2 = c ∧ c < (m.getD r2 []).length
    · rw [if_pos h2, if_pos ⟨rfl, hr, h2⟩]
    · rw [if_neg h2, if_neg (by tauto), entry]
  · rw [if_neg h1, if_neg (by tauto), entry]

theorem shape_setEntry (n : ℕ) (m : List (List ℚ)) (hm : SquareShape n m) (r c : ℕ) (v : ℚ) :
    SquareShape n (setEntry m r c v) := by
  obtain ⟨hlen, hrows⟩ := hm
  refine ⟨by simp [setEntry, hlen], ?_⟩
  intro r2 hr2
  rw [setEntry, getD_set]
  by_cases h : r2 = r ∧ r < m.length
  · rw [if_pos h]
    rw [List.length_set]
    exact h.1 ▸ hrows r2 hr2
  · rw [if_neg h]
    exact hrows r2 hr2

/-- Under the shape assumptions the `setEntry` condition simplifies. -/
theorem entry_setEntry_sq (n : ℕ) (m : List (List ℚ)) (hm : SquareShape n m)
    (r c : ℕ) (hr : r < n) (hc : c < n) (v : ℚ) (r2 c2 : ℕ) :
    entry (setEntry m r c v) r2 c2 = if r2 = r ∧ c2 = c then v else entry m r2 c2 := by
  rw [entry_setEntry]
  obtain ⟨hlen, hrows⟩ := hm
  by_cases h : r2 = r ∧ c2 = c
  · rw [if_pos h, if_pos ⟨h.1, by omega, h.2, by rw [hrows r hr]; omega⟩]
  · rw [if_neg h, if_neg (by tauto)]

theorem entry_zerosMatrix (n i c : ℕ) : entry (zerosMatrix n) i c = 0 := by
  rw [zerosMatrix, entry, getD_map_range]
  by_cases hi : i < n
  · rw [if_pos hi, getD_map_range]
    by_cases hc : c < n
    · rw [if_pos hc]
    · rw [if_neg hc]
  · rw [if_neg hi, List.getD_nil]

theorem shape_zerosMatrix (n : ℕ) : SquareShape n (zerosMatrix n) := by
  refine ⟨by simp [zerosMatrix], ?_⟩
  intro r hr
  rw [zerosMatrix, getD_map_range, if_pos hr]
  simp

theorem shape_identityMatrix (n : ℕ) : SquareShape n (identityMatrix n) := by
  refine ⟨by simp [identityMatrix], ?_⟩
  intro r hr
  rw [identityMatrix, getD_map_range, if_pos hr]
  simp

theorem entry_matrixMultiply (A B : List (List ℚ)) (i j : ℕ)
    (hi : i < A.length) (hj : j < (B.headD []).length) :
    entry (matrixMultiply A B) i j =
      ∑ k in Finset.range ((A.headD []).length), entry A i k * entry B k j := by
  rw [matrixMultiply, entry, getD_map_range, if_pos hi, getD_map_range, if_pos hj,
    foldl_add_eq_sum, zero_add]

theorem upperPass_spec (A : List (List ℚ)) (n j : ℕ) (L U : List (List ℚ))
    (hj : j < n) (hUs : SquareShape n U)
    (hL : LInv A n j L) (hU : UInv A n j U) :
    ∀ t, t ≤ j + 1 →
      SquareShape n ((List.range t).foldl (upperUpd A j L) U) ∧
      ∀ i c, i < n → c < n →
        entry ((List.range t).foldl (upperUpd A j L) U) i c =
          if (i ≤ c ∧ c < j) ∨ (c = j ∧ i < t) then Uent A i c else 0 := by
  intro t
  induction t with
  | zero =>
    intro _
    refine ⟨hUs, fun i c hi hc => ?_⟩
    rw [show List.range 0 = [] from rfl, List.foldl_nil, hU i c hi hc]
    exact if_congr (by omega) rfl rfl
  | succ t ih =>
    intro ht
    obtain ⟨ihShape, ihEntry⟩ := ih (by omega)
    rw [List.range_succ, List.foldl_append, List.foldl_cons, List.foldl_nil, upperUpd]
    refine ⟨shape_setEntry n _ ihShape t j _, ?_⟩
    intro i c hi hc
    rw [entry_setEntry_sq n _ ihShape t j (by omega) hj _ i c]
    by_cases hit : i = t ∧ c = j
    · obtain ⟨rfl, rfl⟩ := hit
      rw [if_pos ⟨rfl, rfl⟩, if_pos (Or.inr ⟨rfl, Nat.lt_succ_self i⟩)]
      rw [foldl_add_eq_sum, zero_add, Uent_eq]
      congr 1
      refine Finset.sum_congr rfl (fun k hk => ?_)
      rw [Finset.mem_range] at hk
      rw [hL i k hi (by omega), ihEntry k c (by omega) hc,
        if_pos ⟨by omega, hk⟩, if_pos (Or.inr ⟨rfl, hk⟩)]
    · rw [if_neg hit, ihEntry i c hi hc]
      exact if_congr (by omega) rfl rfl

theorem lowerPass_err (A : List (List ℚ)) (j : ℕ) (U1 L : List (List ℚ)) (m : ℕ)
    (hm : 0 < m) (hpiv : |entry U1 j j| < tol) (s : ℕ) :
    (List.range' s m).foldlM (lowerUpd A j U1) L = .error .zeroPivot := by
  cases m with
  | zero => omega
  | succ m =>
    rw [List.range'_succ, List.foldlM_cons, lowerUpd, if_pos hpiv, except_bind_error]

theorem lowerPass_ok (A : List (List ℚ)) (n j : ℕ) (U1 : List (List ℚ))
    (hj : j < n) (hU1 : UInv A n (j + 1) U1)
    (hpiv : ¬ |entry U1 j j| < tol) :
    ∀ (m s : ℕ), j + 1 ≤ s → s + m ≤ n →
      ∀ L, SquareShape n L →
        (∀ i c, i < n → c < n → entry L i c =
          if (c < j ∧ c < i) ∨ (c = j ∧ j < i ∧ i < s) then Lent A i c
          else if c = i then 1 else 0) →
        ∃ L1, (List.range' s m).foldlM (lowerUpd A j U1) L = .ok L1 ∧
          SquareShape n L1 ∧
          (∀ i c, i < n → c < n → entry L1 i c =
            if (c < j ∧ c < i) ∨ (c = j ∧ j < i ∧ i < s + m) then Lent A i c
            else if c = i then 1 else 0) := by
  intro m
  induction m with
  | zero =>
    intro s hs hsm L hLs hLp
    refine ⟨L, by rw [show List.range' s 0 = [] from rfl, List.foldlM_nil]; rfl, hLs, ?_⟩
    intro i c hi hc
    rw [hLp i c hi hc]
    exact if_congr (by omega) rfl rfl
  | succ m ih =>
    intro s hs hsm L hLs hLp
    have hsn : s < n := by omega
    have hUjj : entry U1 j j = Uent A j j := by
      rw [hU1 j j hj hj, if_pos ⟨le_refl j, Nat.lt_succ_self j⟩]
    rw [List.range'_succ, List.foldlM_cons, lowerUpd, if_neg hpiv, except_bind_ok]
    have hval : (entry A s j -
        (List.range j).foldl (fun acc k => acc + entry L s k * entry U1 k j) 0)
          / entry U1 j j = Lent A s j := by
      rw [foldl_add_eq_sum, zero_add, hUjj, Lent_eq]
      congr 2
      refine Finset.sum_congr rfl (fun k hk => ?_)
      rw [Finset.mem_range] at hk
      rw [hLp s k hsn (by omega), hU1 k j (by omega) hj,
        if_pos (Or.inl ⟨hk, by omega⟩), if_pos ⟨by omega, Nat.lt_succ_self j⟩]
    have hL2s : SquareShape n (setEntry L s j ((entry A s j -
        (List.range j).foldl (fun acc k => acc + entry L s k * entry U1 k j) 0)
          / entry U1 j j)) := shape_setEntry n L hLs s j _
    have hL2p : ∀ i c, i < n → c < n →
        entry (setEntry L s j ((entry A s j -
          (List.range j).foldl (fun acc k => acc + entry L s k * entry U1 k j) 0)
            / entry U1 j j)) i c =
          if (c < j ∧ c < i) ∨ (c = j ∧ j < i ∧ i < s + 1) then Lent A i c
          else if c = i then 1 else 0 := by
      intro i c hi hc
      rw [entry_setEntry_sq n L hLs s j hsn hj _ i c]
      by_cases hit : i = s ∧ c = j
      · obtain ⟨rfl, rfl⟩ := hit
        rw [if_pos ⟨rfl, rfl⟩, hval, if_pos (Or.inr ⟨rfl, by omega, Nat.lt_succ_self i⟩)]
      · rw [if_neg hit, hLp i c hi hc]
        exact if_congr (by omega) rfl rfl
    obtain ⟨L1, hfold, hL1s, hL1p⟩ := ih (s + 1) (by omega) (by omega) _ hL2s hL2p
    refine ⟨L1, hfold, hL1s, ?_⟩
    intro i c hi hc
    rw [hL1p i c hi hc]
    exact if_congr (by omega) rfl rfl

theorem luStep_eq (A : List (List ℚ)) (n : ℕ) (L U : List (List ℚ)) (j : ℕ) :
    luStep A n (L, U) j =
      ((List.range' (j + 1) (n - (j + 1))).foldlM
        (lowerUpd A j ((List.range (j + 1)).foldl (upperUpd A j L) U)) L) >>=
      (fun L1 => pure (L1, (List.range (j + 1)).foldl (upperUpd A j L) U)) := rfl

theorem luStep_spec (A : List (List ℚ)) (n j : ℕ) (L U : List (List ℚ)) (hj : j < n)
    (hLs : SquareShape n L) (hUs : SquareShape n U)
    (hL : LInv A n j L) (hU : UInv A n j U) :
    (j + 1 < n ∧ |Uent A j j| < tol ∧ luStep A n (L, U) j = .error .zeroPivot) ∨
    ((j + 1 < n → tol ≤ |Uent A j j|) ∧
      ∃ L1 U1, luStep A n (L, U) j = .ok (L1, U1) ∧
        SquareShape n L1 ∧ SquareShape n U1 ∧ LInv A n (j + 1) L1 ∧ UInv A n (j + 1) U1) := by
  obtain ⟨hU1s, hU1e⟩ := upperPass_spec A n j L U hj hUs hL hU (j + 1) (le_refl _)
  rw [luStep_eq]
  set U1 := (List.range (j + 1)).foldl (upperUpd A j L) U with hU1def
  have hU1inv : UInv A n (j + 1) U1 := by
    intro i c hi hc
    rw [hU1e i c hi hc]
    exact if_congr (by omega) rfl rfl
  have hU1jj : entry U1 j j = Uent A j j := by
    rw [hU1inv j j hj hj, if_pos ⟨le_refl j, Nat.lt_succ_self j⟩]
  by_cases hcase : j + 1 < n
  · by_cases hbad : |Uent A j j| < tol
    · left
      refine ⟨hcase, hbad, ?_⟩
      rw [lowerPass_err A j U1 L (n - (j + 1)) (by omega) (by rw [hU1jj]; exact hbad) (j + 1)]
      rfl
    · right
      refine ⟨fun _ => le_of_not_lt hbad, ?_⟩
      obtain ⟨L1, hfold, hL1s, hL1p⟩ := lowerPass_ok A n j U1 hj hU1inv
        (by rw [hU1jj]; exact hbad) (n - (j + 1)) (j + 1) (le_refl _) (by omega) L hLs
        (fun i c hi hc => by rw [hL i c hi hc]; exact if_congr (by omega) rfl rfl)
      refine ⟨L1, U1, ?_, hL1s, hU1s, ?_, hU1inv⟩
      · rw [hfold, except_bind_ok]
        rfl
      · intro i c hi hc
        rw [hL1p i c hi hc]
        exact if_congr (by omega) rfl rfl
  · right
    refine ⟨fun hc => absurd hc hcase, ?_⟩
    refine ⟨L, U1, ?_, hLs, hU1s, ?_, hU1inv⟩
    · rw [show n - (j + 1) = 0 from by omega, show List.range' (j + 1) 0 = [] from rfl,
        List.foldlM_nil]
      rfl
    · intro i c hi hc
      rw [hL i c hi hc]
      exact if_congr (by omega) rfl rfl

theorem luFold_ok (A : List (List ℚ)) (n : ℕ) :
    ∀ (m j : ℕ) (L U : List (List ℚ)) (LU1 : List (List ℚ) × List (List ℚ)),
      j + m = n → SquareShape n L → SquareShape n U → LInv A n j L → UInv A n j U →
      (List.range' j m).foldlM (luStep A n) (L, U) = .ok LU1 →
      SquareShape n LU1.1 ∧ SquareShape n LU1.2 ∧ LInv A n n LU1.1 ∧ UInv A n n LU1.2 ∧
      ∀ c, j ≤ c → c + 1 < n → tol ≤ |Uent A c c| := by
  intro m
  induction m with
  | zero =>
    intro j L U LU1 hjm hLs hUs hL hU hfold
    rw [show List.range' j 0 = [] from rfl, List.foldlM_nil] at hfold
    injection hfold with h2
    rw [← h2]
    exact ⟨hLs, hUs, by rw [show n = j from by omega] at hL ⊢; exact hL,
      by rw [show n = j from by omega] at hU ⊢; exact hU, fun c hc1 hc2 => by omega⟩
  | succ m ih =>
    intro j L U LU1 hjm hLs hUs hL hU hfold
    rw [List.range'_succ, List.foldlM_cons] at hfold
    rcases luStep_spec A n j L U (by omega) hLs hUs hL hU with
      ⟨_, _, herr⟩ | ⟨hpiv, L1, U1, hok, hL1s, hU1s, hL1, hU1⟩
    · rw [herr, except_bind_error] at hfold
      exact absurd hfold (fun hc => Except.noConfusion hc)
    · rw [hok, except_bind_ok] at hfold
      obtain ⟨hs1, hs2, hi1, hi2, hpivots⟩ := ih (j + 1) L1 U1 LU1 (by omega)
        hL1s hU1s hL1 hU1 hfold
      refine ⟨hs1, hs2, hi1, hi2, fun c hc1 hc2 => ?_⟩
      rcases Nat.eq_or_lt_of_le hc1 with rfl | hgt
      · exact hpiv hc2
      · exact hpivots c (by omega) hc2

theorem luFold_success (A : List (List ℚ)) (n : ℕ) :
    ∀ (m j : ℕ) (L U : List (List ℚ)),
      j + m = n → SquareShape n L → SquareShape n U → LInv A n j L → UInv A n j U →
      (∀ c, j ≤ c → c + 1 < n → tol ≤ |Uent A c c|) →
      ∃ L1 U1, (List.range' j m).foldlM (luStep A n) (L, U) = .ok (L1, U1) := by
  intro m
  induction m with
  | zero =>
    intro j L U _ _ _ _ _ _
    exact ⟨L, U, by rw [show List.range' j 0 = [] from rfl, List.foldlM_nil]; rfl⟩
  | succ m ih =>
    intro j L U hjm hLs hUs hL hU hpivs
    rcases luStep_spec A n j L U (by omega) hLs hUs hL hU with
      ⟨hlt, hbad, _⟩ | ⟨_, L1, U1, hok, hL1s, hU1s, hL1, hU1⟩
    · exact absurd (hpivs j (le_refl j) hlt) (not_le.mpr hbad)
    · obtain ⟨L2, U2, hfold⟩ := ih (j + 1) L1 U1 (by omega) hL1s hU1s hL1 hU1
        (fun c hc1 hc2 => hpivs c (by omega) hc2)
      refine ⟨L2, U2, ?_⟩
      rw [List.range'_succ, List.foldlM_cons, hok, except_bind_ok, hfold]

theorem LInv_zero (A : List (List ℚ)) (n : ℕ) : LInv A n 0 (identityMatrix n) := by
  intro i c hi hc
  rw [entry_identityMatrix]
  rw [if_neg (show ¬ (c < 0 ∧ c < i) from by omega)]
  by_cases h : c = i
  · rw [if_pos h, if_pos ⟨hi, hc, h⟩]
  · rw [if_neg h, if_neg (by tauto)]

theorem UInv_zero (A : List (List ℚ)) (n : ℕ) : UInv A n 0 (zerosMatrix n) := by
  intro i c _ _
  rw [entry_zerosMatrix, if_neg (by omega)]

/-- C9: if the first `n-1` Doolittle pivots all have magnitude at least 1e-10
then `luDecomposition` succeeds, regardless of the final pivot `U[n-1][n-1]`:
the zero-pivot check runs only inside the lower-triangular pass, and no
lower-triangular entries lie below the last row. -/
theorem claim_C9 (A : List (List ℚ)) (n : ℕ) (hA : A.length = n) (_hn : 1 ≤ n)
    (_hsq : ∀ r, r < n → (A.getD r []).length = n)
    (hpiv : ∀ j, j + 1 < n → tol ≤ |Uent A j j|) :
    ∃ L U, luDecomposition A = .ok (L, U) := by
  obtain ⟨L1, U1, hfold⟩ := luFold_success A n n 0 (identityMatrix n) (zerosMatrix n)
    (by omega) (shape_identityMatrix n) (shape_zerosMatrix n)
    (LInv_zero A n) (UInv_zero A n) (fun c _ hc2 => hpiv c hc2)
  refine ⟨L1, U1, ?_⟩
  rw [luDecomposition, hA, List.range_eq_range']
  exact hfold

/-- C5: on success `luDecomposition` returns unit-lower-triangular `L` and
upper-triangular `U` of the input's shape, whose entries satisfy the
Doolittle recursion, whose checked pivots are all at least the 1e-10
tolerance, and whose product reproduces `A` elementwise within 1e-6 (exactly,
in the rational model). -/
theorem claim_C5 (A : List (List ℚ)) (n : ℕ) (hA : A.length = n)
    (_hsq : ∀ r, r < n → (A.getD r []).length = n)
    (L U : List (List ℚ)) (h : luDecomposition A = .ok (L, U)) :
    (L.length = n ∧ U.length = n ∧
      ∀ r, r < n → (L.getD r []).length = n ∧ (U.getD r []).length = n) ∧
    (∀ i, i < n → entry L i i = 1) ∧
    (∀ i c, i < n → c < n → i < c → entry L i c = 0) ∧
    (∀ i c, i < n → c < n → c < i → entry U i c = 0) ∧
    (∀ i c, i ≤ c → c < n →
      entry U i c = entry A i c - ∑ k in Finset.range i, entry L i k * entry U k c) ∧
    (∀ i c, c < i → i < n →
      entry L i c =
        (entry A i c - ∑ k in Finset.range c, entry L i k * entry U k c) / entry U c c) ∧
    (∀ c, c + 1 < n → tol ≤ |entry U c c|) ∧
    (∀ i c, i < n → c < n →
      |entry (matrixMultiply L U) i c - entry A i c| ≤ approxTol) := by
  rw [luDecomposition, hA, List.range_eq_range'] at h
  obtain ⟨hLs0, hUs0, hLinv0, hUinv0, hpivots⟩ := luFold_ok A n n 0
    (identityMatrix n) (zerosMatrix n) (L, U) (by omega)
    (shape_identityMatrix n) (shape_zerosMatrix n) (LInv_zero A n) (UInv_zero A n) h
  have hLs : SquareShape n L := hLs0
  have hUs : SquareShape n U := hUs0
  have hLinv : LInv A n n L := hLinv0
  have hUinv : UInv A n n U := hUinv0
  have hLe : ∀ i c, i < n → c < n →
      entry L i c = if c < i then Lent A i c else if c = i then 1 else 0 := by
    intro i c hi hc
    rw [hLinv i c hi hc]
    by_cases hci : c < i
    · rw [if_pos ⟨hc, hci⟩, if_pos hci]
    · rw [if_neg (by tauto), if_neg hci]
  have hUe : ∀ i c, i < n → c < n →
      entry U i c = if i ≤ c then Uent A i c else 0 := by
    intro i c hi hc
    rw [hUinv i c hi hc]
    by_cases hic : i ≤ c
    · rw [if_pos ⟨hic, hc⟩, if_pos hic]
    · rw [if_neg (by tauto), if_neg hic]
  have hUpiv : ∀ c, c + 1 < n → tol ≤ |entry U c c| := by
    intro c hc
    rw [hUe c c (by omega) (by omega), if_pos (le_refl c)]
    exact hpivots c (by omega) hc
  refine ⟨⟨hLs.1, hUs.1, fun r hr => ⟨hLs.2 r hr, hUs.2 r hr⟩⟩, ?_, ?_, ?_, ?_, ?_, hUpiv, ?_⟩
  · intro i hi
    rw [hLe i i hi hi, if_neg (by omega), if_pos rfl]
  · intro i c hi hc hic
    rw [hLe i c hi hc, if_neg (by omega), if_neg (by omega)]
  · intro i c hi hc hci
    rw [hUe i c hi hc, if_neg (by omega)]
  · intro i c hic hc
    have hi : i < n := by omega
    rw [hUe i c hi hc, if_pos hic, Uent_eq]
    congr 1
    refine Finset.sum_congr rfl (fun k hk => ?_)
    rw [Finset.mem_range] at hk
    rw [hLe i k hi (by omega), if_pos hk, hUe k c (by omega) hc, if_pos (by omega)]
  · intro i c hci hi
    have hc : c < n := by omega
    rw [hLe i c hi hc, if_pos hci, Lent_eq, hUe c c hc hc, if_pos (le_refl c)]
    congr 2
    refine Finset.sum_congr rfl (fun k hk => ?_)
    rw [Finset.mem_range] at hk
    rw [hLe i k hi (by omega), if_pos (by omega), hUe k c (by omega) hc, if_pos (by omega)]
  · intro i c hi hc
    have hn : 0 < n := by omega
    have hheadL : (L.headD []).length = n := by
      rw [headD_eq_getD]
      exact (hLs.2 0 hn)
    have hheadU : (U.headD []).length = n := by
      rw [headD_eq_getD]
      exact (hUs.2 0 hn)
    rw [entry_matrixMultiply L U i c (by rw [hLs.1]; omega) (by rw [hheadU]; omega), hheadL]
    have hprod : ∑ k in Finset.range n, entry L i k * entry U k c = entry A i c := by
      by_cases hic : i ≤ c
      · -- terms k > i vanish (L upper part is 0)
        rw [← Finset.sum_range_add_sum_Ico _ (show i + 1 ≤ n from by omega)]
        rw [Finset.sum_range_succ]
        have hzero : ∑ k in Finset.Ico (i + 1) n, entry L i k * entry U k c = 0 := by
          refine Finset.sum_eq_zero (fun k hk => ?_)
          rw [Finset.mem_Ico] at hk
          rw [hLe i k hi (by omega), if_neg (by omega), if_neg (by omega), zero_mul]
        rw [hzero, add_zero]
        rw [hLe i i hi hi, if_neg (by omega), if_pos rfl, one_mul]
        rw [hUe i c hi hc, if_pos hic]
        have hrest : ∀ k ∈ Finset.range i, entry L i k * entry U k c
            = Lent A i k * Uent A k c := by
          intro k hk
          rw [Finset.mem_range] at hk
          rw [hLe i k hi (by omega), if_pos hk, hUe k c (by omega) hc, if_pos (by omega)]
        rw [Finset.sum_congr rfl hrest, Uent_eq]
        ring
      · -- c < i: terms k > c vanish (U lower part is 0)
        have hci : c < i := by omega
        rw [← Finset.sum_range_add_sum_Ico _ (show c + 1 ≤ n from by omega)]
        rw [Finset.sum_range_succ]
        have hzero : ∑ k in Finset.Ico (c + 1) n, entry L i k * entry U k c = 0 := by
          refine Finset.sum_eq_zero (fun k hk => ?_)
          rw [Finset.mem_Ico] at hk
          rw [hUe k c (by omega) hc, if_neg (by omega), mul_zero]
        rw [hzero, add_zero]
        rw [hLe i c hi hc, if_pos hci, hUe c c hc hc, if_pos (le_refl c)]
        have hrest : ∀ k ∈ Finset.range c, entry L i k * entry U k c
            = Lent A i k * Uent A k c := by
          intro k hk
          rw [Finset.mem_range] at hk
          rw [hLe i k hi (by omega), if_pos (by omega), hUe k c (by omega) hc,
            if_pos (by omega)]
        rw [Finset.sum_congr rfl hrest, Lent_eq]
        have hUcc : Uent A c c ≠ 0 := by
          intro hzero2
          have htol := hpivots c (by omega) (by omega)
          rw [hzero2, abs_zero] at htol
          exact absurd htol (by norm_num [tol])
        rw [div_mul_cancel₀ _ hUcc]
        ring
    rw [hprod, sub_self, abs_zero]
    norm_num [approxTol]

theorem Uent00_ones : Uent [[1, 1], [1, 1]] 0 0 = 1 := by
  rw [Uent_eq]
  norm_num [entry]

theorem Uent01_ones : Uent [[1, 1], [1, 1]] 0 1 = 1 := by
  rw [Uent_eq]
  norm_num [entry]

theorem Lent10_ones : Lent [[1, 1], [1, 1]] 1 0 = 1 := by
  rw [Lent_eq, Uent00_ones]
  norm_num [entry]

theorem Uent11_ones : Uent [[1, 1], [1, 1]] 1 1 = 0 := by
  rw [Uent_eq, Finset.sum_range_one, Lent10_ones, Uent01_ones]
  norm_num [entry]

theorem ones_pivots : ∀ j, j + 1 < 2 → tol ≤ |Uent [[1, 1], [1, 1]] j j| := by
  intro j hj
  have hj0 : j = 0 := by omega
  subst hj0
  rw [Uent00_ones]
  norm_num [tol]

/-- C9 witness: the singular all-ones 2×2 matrix has first pivot 1 and final
Doolittle pivot 0, yet `luDecomposition` succeeds. -/
theorem claim_C9_witness :
    (([[1, 1], [1, 1]] : List (List ℚ)).length = 2 ∧ (1 : ℕ) ≤ 2 ∧
      (∀ r, r < 2 → (([[1, 1], [1, 1]] : List (List ℚ)).getD r []).length = 2) ∧
      (∀ j, j + 1 < 2 → tol ≤ |Uent [[1, 1], [1, 1]] j j|)) ∧
    Uent [[1, 1], [1, 1]] 1 1 = 0 ∧
    ∃ L U, luDecomposition [[1, 1], [1, 1]] = .ok (L, U) :=
  ⟨⟨rfl, by omega, by decide, ones_pivots⟩, Uent11_ones,
    claim_C9 [[1, 1], [1, 1]] 2 rfl (by omega) (by decide) ones_pivots⟩

theorem luDecomposition_single : luDecomposition [[(7 : ℚ)]] = .ok ([[1]], [[7]]) := by
  rw [luDecomposition]
  norm_num [luStep, upperUpd, setEntry, entry, identityMatrix, zerosMatrix,
    show List.range 1 = [0] from by decide, List.foldlM_cons, List.foldlM_nil,
    show List.range 0 = ([] : List ℕ) from rfl,
    show List.range' 1 0 = ([] : List ℕ) from rfl]
  rfl

/-- C5 witness: the theorem applied at the 1×1 matrix `[[7]]`. -/
theorem claim_C5_witness :
    (([[(7 : ℚ)]] : List (List ℚ)).length = 1 ∧
     (∀ r, r < 1 → (([[(7 : ℚ)]] : List (List ℚ)).getD r []).length = 1) ∧
     luDecomposition [[(7 : ℚ)]] = .ok ([[1]], [[7]])) ∧
    ((([[(1 : ℚ)]] : List (List ℚ)).length = 1 ∧ ([[(7 : ℚ)]] : List (List ℚ)).length = 1 ∧
      ∀ r, r < 1 → (([[(1 : ℚ)]] : List (List ℚ)).getD r []).length = 1 ∧
        (([[(7 : ℚ)]] : List (List ℚ)).getD r []).length = 1) ∧
     (∀ i, i < 1 → entry [[1]] i i = 1) ∧
     (∀ i c, i < 1 → c < 1 → i < c → entry [[1]] i c = 0) ∧
     (∀ i c, i < 1 → c < 1 → c < i → entry [[7]] i c = 0) ∧
     (∀ i c, i ≤ c → c < 1 →
       entry [[7]] i c =
         entry [[(7 : ℚ)]] i c - ∑ k in Finset.range i, entry [[1]] i k * entry [[7]] k c) ∧
     (∀ i c, c < i → i < 1 →
       entry [[1]] i c =
         (entry [[(7 : ℚ)]] i c - ∑ k in Finset.range c, entry [[1]] i k * entry [[7]] k c)
           / entry [[7]] c c) ∧
     (∀ c, c + 1 < 1 → tol ≤ |entry [[7]] c c|) ∧
     (∀ i c, i < 1 → c < 1 →
       |entry (matrixMultiply [[1]] [[7]]) i c - entry [[(7 : ℚ)]] i c| ≤ approxTol)) :=
  ⟨⟨rfl, by decide, luDecomposition_single⟩,
   claim_C5 [[(7 : ℚ)]] 1 rfl (by decide) [[1]] [[7]] luDecomposition_single⟩

/-! ### C4: correctness of the Gauss-Jordan inverse

The augmented matrix `[A | I]` maintains the invariant
`left half = right half · A` (each row operation is left-multiplication by a
matrix), and the processed columns of the left half are unit columns.  After
all `n` columns the left half is the identity, so the right half is a
two-sided inverse of `A`. -/

/-- `m` is an `n × 2n` augmented matrix. -/
def AugShape (n : ℕ) (m : List (List ℚ)) : Prop :=
  m.length = n ∧ ∀ r, r < n → (m.getD r []).length = 2 * n

/-- The `n × n` matrix of a list-of-rows (left half of an augmentation). -/
def toMat (n : ℕ) (A : List (List ℚ)) : Matrix (Fin n) (Fin n) ℚ :=
  Matrix.of (fun i j => entry A i j)

/-- The right half of an augmented matrix. -/
def Rm (n : ℕ) (aug : List (List ℚ)) : Matrix (Fin n) (Fin n) ℚ :=
  Matrix.of (fun i j => entry aug i (n + (j : ℕ)))

/-- `aug2` is obtained from `aug` by a linear recombination of rows (acting
simultaneously on both halves). -/
def RowEquiv (n : ℕ) (aug aug2 : List (List ℚ)) : Prop :=
  ∃ C : Matrix (Fin n) (Fin n) ℚ, toMat n aug2 = C * toMat n aug ∧ Rm n aug2 = C * Rm n aug

/-- Columns `< k` of the left half are identity columns. -/
def UnitCols (n k : ℕ) (aug : List (List ℚ)) : Prop :=
  ∀ i j : ℕ, i < n → j < k → entry aug i j = if i = j then 1 else 0

theorem getD_map_lt {α β : Type} (g : α → β) :
    ∀ (l : List α) (i : ℕ), i < l.length → ∀ (d : β) (d2 : α),
      (l.map g).getD i d = g (l.getD i d2) := by
  intro l
  induction l with
  | nil => intro i hi; simp at hi
  | cons a l ih =>
    intro i hi d d2
    cases i with
    | zero => simp
    | succ i =>
      rw [List.map_cons, List.getD_cons_succ, List.getD_cons_succ]
      exact ih i (by simpa using hi) d d2

theorem getDrow_swapRows (m : List (List ℚ)) (a b : ℕ) (ha : a < m.length)
    (hb : b < m.length) (r : ℕ) :
    (swapRows m a b).getD r [] =
      m.getD (if r = b then a else if r = a then b else r) [] := by
  rw [swapRows, getD_set, getD_set, List.length_set]
  by_cases hrb : r = b
  · rw [if_pos ⟨hrb, hb⟩, if_pos hrb]
  · rw [if_neg (by tauto), if_neg hrb]
    by_cases hra : r = a
    · rw [if_pos ⟨hra, ha⟩, if_pos hra]
    · rw [if_neg (by tauto), if_neg hra]

theorem entry_swapRows (m : List (List ℚ)) (a b : ℕ) (ha : a < m.length)
    (hb : b < m.length) (r c : ℕ) :
    entry (swapRows m a b) r c = entry m (if r = b then a else if r = a then b else r) c := by
  rw [entry, entry, getDrow_swapRows m a b ha hb r]

theorem length_swapRows (m : List (List ℚ)) (a b : ℕ) :
    (swapRows m a b).length = m.length := by
  simp [swapRows]

theorem augShape_swapRows (n : ℕ) (m : List (List ℚ)) (hm : AugShape n m)
    (a b : ℕ) (ha : a < n) (hb : b < n) : AugShape n (swapRows m a b) := by
  refine ⟨by rw [length_swapRows]; exact hm.1, ?_⟩
  intro r hr
  rw [getDrow_swapRows m a b (by rw [hm.1]; omega) (by rw [hm.1]; omega) r]
  by_cases hrb : r = b
  · rw [if_pos hrb]; exact hm.2 a ha
  · rw [if_neg hrb]
    by_cases hra : r = a
    · rw [if_pos hra]; exact hm.2 b hb
    · rw [if_neg hra]; exact hm.2 r hr

theorem entry_gjScale (a1 : List (List ℚ)) (col : ℕ) (r c : ℕ) :
    entry (gjScale a1 col) r c =
      if r = col ∧ col < a1.length then entry a1 col c / entry a1 col col
      else entry a1 r c := by
  rw [gjScale, entry, getD_set]
  by_cases h : r = col ∧ col < a1.length
  · rw [if_pos h, if_pos h,
      getD_map_zero (fun v => v / entry a1 col col) (zero_div _) (a1.getD col []) c]
    rfl
  · rw [if_neg h, if_neg h, entry]

theorem augShape_gjScale (n : ℕ) (a1 : List (List ℚ)) (hm : AugShape n a1) (col : ℕ) :
    AugShape n (gjScale a1 col) := by
  refine ⟨by simp [gjScale, hm.1], ?_⟩
  intro r hr
  rw [gjScale, getD_set]
  by_cases h : r = col ∧ col < a1.length
  · rw [if_pos h, List.length_map]
    exact h.1 ▸ hm.2 r hr
  · rw [if_neg h]
    exact hm.2 r hr

theorem entry_gjElim (n : ℕ) (a2 : List (List ℚ)) (hm : AugShape n a2) (col : ℕ)
    (hcol : col < n) (r c : ℕ) (hr : r < n) :
    entry (gjElim a2 col) r c =
      if r = col then entry a2 r c
      else entry a2 r c - entry a2 r col * entry a2 col c := by
  rw [gjElim, entry, getD_map_range, hm.1, if_pos hr]
  by_cases h : r = col
  · rw [if_pos h, if_pos h, entry]
  · rw [if_neg h, if_neg h]
    rw [getD_zipWith _ (by ring) _ _ (by rw [hm.2 r hr, hm.2 col hcol])]
    rw [entry, entry, entry]

theorem augShape_gjElim (n : ℕ) (a2 : List (List ℚ)) (hm : AugShape n a2) (col : ℕ)
    (hcol : col < n) : AugShape n (gjElim a2 col) := by
  refine ⟨by simp [gjElim, hm.1], ?_⟩
  intro r hr
  rw [gjElim, getD_map_range, hm.1, if_pos hr]
  by_cases h : r = col
  · rw [if_pos h]
    exact h ▸ hm.2 r hr
  · rw [if_neg h]
    rw [List.length_zipWith, hm.2 r hr, hm.2 col hcol]
    omega

theorem sum_ite_unit (n : ℕ) (x : Fin n) (f : Fin n → ℚ) :
    ∑ k : Fin n, (if k = x then (1 : ℚ) else 0) * f k = f x := by
  rw [Finset.sum_congr rfl (fun k _ => by rw [ite_mul, one_mul, zero_mul])]
  rw [Finset.sum_ite_eq' Finset.univ x f]
  simp

theorem sum_ite_unit2 (n : ℕ) (x : Fin n) (c : ℚ) (f : Fin n → ℚ) :
    ∑ k : Fin n, (if k = x then c else 0) * f k = c * f x := by
  rw [Finset.sum_congr rfl (fun k _ => by rw [ite_mul, zero_mul])]
  rw [Finset.sum_ite_eq' Finset.univ x (fun k => c * f k)]
  simp

theorem rowEquiv_swapRows (n : ℕ) (m : List (List ℚ)) (hm : AugShape n m)
    (a b : ℕ) (ha : a < n) (hb : b < n) : RowEquiv n m (swapRows m a b) := by
  have hlen := hm.1
  refine ⟨Matrix.of (fun i k =>
    if k = (⟨if (i : ℕ) = b then a else if (i : ℕ) = a then b else (i : ℕ), by
      split_ifs <;> omega⟩ : Fin n) then (1 : ℚ) else 0), ?_, ?_⟩
  · funext i j
    show entry (swapRows m a b) i j = _
    rw [Matrix.mul_apply]
    simp only [Matrix.of_apply]
    rw [sum_ite_unit n _ (fun k => toMat n m k j)]
    rw [entry_swapRows m a b (by omega) (by omega) i j]
    rfl
  · funext i j
    show entry (swapRows m a b) i (n + j) = _
    rw [Matrix.mul_apply]
    simp only [Matrix.of_apply]
    rw [sum_ite_unit n _ (fun k => Rm n m k j)]
    rw [entry_swapRows m a b (by omega) (by omega) i (n + j)]
    rfl

theorem rowEquiv_gjScale (n : ℕ) (a1 : List (List ℚ)) (hm : AugShape n a1)
    (col : ℕ) (hcol : col < n) : RowEquiv n a1 (gjScale a1 col) := by
  have hlen := hm.1
  refine ⟨Matrix.diagonal (fun i => if (i : ℕ) = col then (entry a1 col col)⁻¹ else 1), ?_, ?_⟩
  · funext i j
    show entry (gjScale a1 col) i j = _
    rw [Matrix.diagonal_mul, entry_gjScale]
    by_cases h : (i : ℕ) = col
    · rw [if_pos ⟨h, by omega⟩, if_pos h, div_eq_mul_inv, mul_comm]
      rw [show entry a1 col j = toMat n a1 i j from by rw [toMat, Matrix.of_apply, h]]
    · rw [if_neg (by tauto), if_neg h, one_mul]
      rfl
  · funext i j
    show entry (gjScale a1 col) i (n + j) = _
    rw [Matrix.diagonal_mul, entry_gjScale]
    by_cases h : (i : ℕ) = col
    · rw [if_pos ⟨h, by omega⟩, if_pos h, div_eq_mul_inv, mul_comm]
      rw [show entry a1 col (n + j) = Rm n a1 i j from by rw [Rm, Matrix.of_apply, h]]
    · rw [if_neg (by tauto), if_neg h, one_mul]
      rfl

theorem rowEquiv_gjElim (n : ℕ) (a2 : List (List ℚ)) (hm : AugShape n a2)
    (col : ℕ) (hcol : col < n) : RowEquiv n a2 (gjElim a2 col) := by
  refine ⟨Matrix.of (fun i k =>
    (if k = i then (1 : ℚ) else 0) -
      (if k = (⟨col, hcol⟩ : Fin n) ∧ ¬ i = (⟨col, hcol⟩ : Fin n)
        then entry a2 (i : ℕ) col else 0)), ?_, ?_⟩
  · funext i j
    show entry (gjElim a2 col) i j = _
    rw [Matrix.mul_apply]
    simp only [Matrix.of_apply, sub_mul]
    rw [Finset.sum_sub_distrib]
    rw [sum_ite_unit n i (fun k => toMat n a2 k j)]
    rw [entry_gjElim n a2 hm col hcol i j i.isLt]
    by_cases h : i = (⟨col, hcol⟩ : Fin n)
    · have hic : (i : ℕ) = col := by rw [h]
      rw [if_pos hic]
      rw [Finset.sum_congr rfl (fun k _ => by rw [if_neg (by tauto), zero_mul])]
      rw [Finset.sum_const_zero, sub_zero]
      rfl
    · have hic : ¬ (i : ℕ) = col := by
        intro hc
        exact h (Fin.ext hc)
      rw [if_neg hic]
      rw [Finset.sum_congr rfl (fun k _ => by
        rw [show (if k = (⟨col, hcol⟩ : Fin n) ∧ ¬ i = (⟨col, hcol⟩ : Fin n)
            then entry a2 (i : ℕ) col else 0)
          = (if k = (⟨col, hcol⟩ : Fin n) then entry a2 (i : ℕ) col else 0) from by
            by_cases hk : k = (⟨col, hcol⟩ : Fin n)
            · rw [if_pos ⟨hk, h⟩, if_pos hk]
            · rw [if_neg (by tauto), if_neg hk]])]
      rw [sum_ite_unit2 n (⟨col, hcol⟩ : Fin n) (entry a2 (i : ℕ) col)
        (fun k => toMat n a2 k j)]
      rfl
  · funext i j
    show entry (gjElim a2 col) i (n + j) = _
    rw [Matrix.mul_apply]
    simp only [Matrix.of_apply, sub_mul]
    rw [Finset.sum_sub_distrib]
    rw [sum_ite_unit n i (fun k => Rm n a2 k j)]
    rw [entry_gjElim n a2 hm col hcol i (n + j) i.isLt]
    by_cases h : i = (⟨col, hcol⟩ : Fin n)
    · have hic : (i : ℕ) = col := by rw [h]
      rw [if_pos hic]
      rw [Finset.sum_congr rfl (fun k _ => by rw [if_neg (by tauto), zero_mul])]
      rw [Finset.sum_const_zero, sub_zero]
      rfl
    · have hic : ¬ (i : ℕ) = col := by
        intro hc
        exact h (Fin.ext hc)
      rw [if_neg hic]
      rw [Finset.sum_congr rfl (fun k _ => by
        rw [show (if k = (⟨col, hcol⟩ : Fin n) ∧ ¬ i = (⟨col, hcol⟩ : Fin n)
            then entry a2 (i : ℕ) col else 0)
          = (if k = (⟨col, hcol⟩ : Fin n) then entry a2 (i : ℕ) col else 0) from by
            by_cases hk : k = (⟨col, hcol⟩ : Fin n)
            · rw [if_pos ⟨hk, h⟩, if_pos hk]
            · rw [if_neg (by tauto), if_neg hk]])]
      rw [sum_ite_unit2 n (⟨col, hcol⟩ : Fin n) (entry a2 (i : ℕ) col)
        (fun k => Rm n a2 k j)]
      rfl

theorem rowEquiv_trans (n : ℕ) (x y z : List (List ℚ)) :
    RowEquiv n x y → RowEquiv n y z → RowEquiv n x z := by
  rintro ⟨C1, h1, h2⟩ ⟨C2, h3, h4⟩
  exact ⟨C2 * C1, by rw [h3, h1, Matrix.mul_assoc], by rw [h4, h2, Matrix.mul_assoc]⟩

theorem unitCols_swapRows (n col p : ℕ) (m : List (List ℚ)) (hm : AugShape n m)
    (hcol : col < n) (hp1 : col ≤ p) (hp2 : p < n) (huc : UnitCols n col m) :
    UnitCols n col (swapRows m col p) := by
  intro i j hi hj
  rw [entry_swapRows m col p (by rw [hm.1]; omega) (by rw [hm.1]; omega) i j]
  by_cases hip : i = p
  · rw [if_pos hip, huc col j hcol hj, if_neg (by omega), if_neg (by omega)]
  · rw [if_neg hip]
    by_cases hic : i = col
    · rw [if_pos hic, huc p j hp2 hj, if_neg (by omega), if_neg (by omega)]
    · rw [if_neg hic, huc i j hi hj]

theorem unitCols_gjScale (n col : ℕ) (a1 : List (List ℚ)) (hm : AugShape n a1)
    (hcol : col < n) (huc : UnitCols n col a1) :
    UnitCols n col (gjScale a1 col) := by
  intro i j hi hj
  rw [entry_gjScale]
  by_cases hic : i = col
  · rw [if_pos ⟨hic, by rw [hm.1]; omega⟩, huc col j hcol hj,
      if_neg (by omega), if_neg (by omega), zero_div]
  · rw [if_neg (by tauto), huc i j hi hj]

theorem pivot_gjScale (col : ℕ) (a1 : List (List ℚ)) (hlen : col < a1.length)
    (hne : entry a1 col col ≠ 0) :
    entry (gjScale a1 col) col col = 1 := by
  rw [entry_gjScale, if_pos ⟨rfl, hlen⟩, div_self hne]

theorem unitCols_gjElim (n col : ℕ) (a2 : List (List ℚ)) (hm : AugShape n a2)
    (hcol : col < n) (huc : UnitCols n col a2) (hpiv : entry a2 col col = 1) :
    UnitCols n (col + 1) (gjElim a2 col) := by
  intro i j hi hj
  rw [entry_gjElim n a2 hm col hcol i j hi]
  by_cases hic : i = col
  · rw [if_pos hic]
    by_cases hjc : j = col
    · rw [hic, hjc, hpiv, if_pos rfl]
    · rw [hic, huc col j hcol (by omega)]
  · rw [if_neg hic]
    by_cases hjc : j = col
    · rw [hjc, hpiv, mul_one, sub_self, if_neg (by omega)]
    · rw [huc col j hcol (by omega), if_neg (by omega), mul_zero, sub_zero,
        huc i j hi (by omega)]

theorem gjStep_ok_spec (n : ℕ) (aug : List (List ℚ)) (col : ℕ) (hcol : col < n)
    (hs : AugShape n aug) (huc : UnitCols n col aug) (a3 : List (List ℚ))
    (hok : gjStep aug col = .ok a3) :
    AugShape n a3 ∧ UnitCols n (col + 1) a3 ∧ RowEquiv n aug a3 := by
  have hlen := hs.1
  have hpb := findPivotRow_bounds aug col (by omega)
  rw [gjStep] at hok
  by_cases hbad : |entry (swapRows aug col (findPivotRow aug col)) col col| < tol
  · rw [if_pos hbad] at hok
    exact absurd hok (fun hc => Except.noConfusion hc)
  · rw [if_neg hbad] at hok
    injection hok with hok2
    have hs1 : AugShape n (swapRows aug col (findPivotRow aug col)) :=
      augShape_swapRows n aug hs col (findPivotRow aug col) hcol (by omega)
    have huc1 : UnitCols n col (swapRows aug col (findPivotRow aug col)) :=
      unitCols_swapRows n col (findPivotRow aug col) aug hs hcol (by omega) (by omega) huc
    have hne : entry (swapRows aug col (findPivotRow aug col)) col col ≠ 0 :=
      abs_pos.mp (lt_of_lt_of_le tol_pos (le_of_not_lt hbad))
    have hs2 : AugShape n (gjScale (swapRows aug col (findPivotRow aug col)) col) :=
      augShape_gjScale n _ hs1 col
    have huc2 : UnitCols n col (gjScale (swapRows aug col (findPivotRow aug col)) col) :=
      unitCols_gjScale n col _ hs1 hcol huc1
    have hpiv1 : entry (gjScale (swapRows aug col (findPivotRow aug col)) col) col col = 1 :=
      pivot_gjScale col _ (by rw [hs1.1]; omega) hne
    refine ⟨?_, ?_, ?_⟩
    · rw [← hok2]
      exact augShape_gjElim n _ hs2 col hcol
    · rw [← hok2]
      exact unitCols_gjElim n col _ hs2 hcol huc2 hpiv1
    · rw [← hok2]
      refine rowEquiv_trans n _ _ _ (rowEquiv_swapRows n aug hs col (findPivotRow aug col)
        hcol (by omega)) ?_
      exact rowEquiv_trans n _ _ _ (rowEquiv_gjScale n _ hs1 col hcol)
        (rowEquiv_gjElim n _ hs2 col hcol)

theorem gjFold_spec (n : ℕ) (A : List (List ℚ)) :
    ∀ (m k : ℕ) (aug final : List (List ℚ)), k + m = n →
      AugShape n aug → UnitCols n k aug →
      toMat n aug = Rm n aug * toMat n A →
      (List.range' k m).foldlM gjStep aug = .ok final →
      AugShape n final ∧ UnitCols n n final ∧ toMat n final = Rm n final * toMat n A := by
  intro m
  induction m with
  | zero =>
    intro k aug final hkm hs huc hinv hfold
    rw [show List.range' k 0 = [] from rfl, List.foldlM_nil] at hfold
    injection hfold with h2
    subst h2
    have hk : k = n := by omega
    subst hk
    exact ⟨hs, huc, hinv⟩
  | succ m ih =>
    intro k aug final hkm hs huc hinv hfold
    rw [List.range'_succ, List.foldlM_cons] at hfold
    cases hstep : gjStep aug k with
    | error e =>
      rw [hstep, except_bind_error] at hfold
      exact absurd hfold (fun hc => Except.noConfusion hc)
    | ok a3 =>
      rw [hstep, except_bind_ok] at hfold
      obtain ⟨hs3, huc3, hre⟩ := gjStep_ok_spec n aug k (by omega) hs huc a3 hstep
      obtain ⟨C, hC1, hC2⟩ := hre
      have hinv3 : toMat n a3 = Rm n a3 * toMat n A := by
        rw [hC1, hC2, hinv, Matrix.mul_assoc]
      exact ih (k + 1) a3 final (by omega) hs3 huc3 hinv3 hfold

theorem augmentIdentity_shape (A : List (List ℚ)) (n : ℕ) (hA : A.length = n)
    (hrows : ∀ r, r < n → (A.getD r []).length = n) : AugShape n (augmentIdentity A) := by
  refine ⟨by simp [augmentIdentity, hA], ?_⟩
  intro r hr
  rw [augmentIdentity, hA, getD_map_range, if_pos hr, List.length_append, List.length_map,
    List.length_range, hrows r hr]
  omega

theorem entry_augmentIdentity_left (A : List (List ℚ)) (n : ℕ) (hA : A.length = n)
    (hrows : ∀ r, r < n → (A.getD r []).length = n) (i j : ℕ) (hi : i < n) (hj : j < n) :
    entry (augmentIdentity A) i j = entry A i j := by
  rw [augmentIdentity, entry, hA, getD_map_range, if_pos hi, getD_append,
    if_pos (by rw [hrows i hi]; omega)]
  rfl

theorem entry_augmentIdentity_right (A : List (List ℚ)) (n : ℕ) (hA : A.length = n)
    (hrows : ∀ r, r < n → (A.getD r []).length = n) (i j : ℕ) (hi : i < n) (hj : j < n) :
    entry (augmentIdentity A) i (n + j) = if j = i then 1 else 0 := by
  rw [augmentIdentity, entry, hA, getD_map_range, if_pos hi, getD_append,
    if_neg (by rw [hrows i hi]; omega)]
  rw [show n + j - (A.getD i []).length = j from by rw [hrows i hi]; omega]
  rw [getD_map_range, if_pos hj]

theorem unitCols_full_toMat (n : ℕ) (final : List (List ℚ)) (huc : UnitCols n n final) :
    toMat n final = 1 := by
  funext i j
  rw [toMat, Matrix.of_apply, huc i j i.isLt j.isLt, Matrix.one_apply]
  by_cases h : (i : ℕ) = (j : ℕ)
  · rw [if_pos h, if_pos (Fin.ext h)]
  · rw [if_neg h, if_neg (fun hc => h (by rw [hc]))]

theorem matrixInverse_ok_inverse (A : List (List ℚ)) (n : ℕ) (hA : A.length = n)
    (hrows : ∀ r, r < n → (A.getD r []).length = n)
    (M : List (List ℚ)) (h : matrixInverse A = .ok M) :
    M.length = n ∧ (∀ r, r < n → (M.getD r []).length = n) ∧
    toMat n A * toMat n M = 1 ∧ toMat n M * toMat n A = 1 := by
  rw [matrixInverse, List.range_eq_range'] at h
  cases hfold : (List.range' 0 A.length).foldlM gjStep (augmentIdentity A) with
  | error e =>
    rw [hfold, except_bind_error] at h
    exact absurd h (fun hc => Except.noConfusion hc)
  | ok final =>
    rw [hfold, except_bind_ok] at h
    rw [show (pure (final.map (fun row => row.drop A.length)) : Except JsErr (List (List ℚ)))
      = Except.ok (final.map (fun row => row.drop A.length)) from rfl] at h
    injection h with h2
    subst h2
    rw [hA] at hfold
    have hbase : toMat n (augmentIdentity A) = Rm n (augmentIdentity A) * toMat n A := by
      have hL0 : toMat n (augmentIdentity A) = toMat n A := by
        funext i j
        rw [toMat, Matrix.of_apply, entry_augmentIdentity_left A n hA hrows i j i.isLt j.isLt]
        rfl
      have hR0 : Rm n (augmentIdentity A) = 1 := by
        funext i j
        rw [Rm, Matrix.of_apply,
          entry_augmentIdentity_right A n hA hrows i j i.isLt j.isLt, Matrix.one_apply]
        by_cases h3 : (j : ℕ) = (i : ℕ)
        · rw [if_pos h3, if_pos (Fin.ext h3.symm)]
        · rw [if_neg h3, if_neg (fun hc => h3 (by rw [hc]))]
      rw [hL0, hR0, Matrix.one_mul]
    obtain ⟨hsF, hucF, hinvF⟩ := gjFold_spec n A n 0 (augmentIdentity A) final (by omega)
      (augmentIdentity_shape A n hA hrows)
      (fun i j _ hj => absurd hj (Nat.not_lt_zero j)) hbase hfold
    have hMmat : toMat n (final.map (fun row => row.drop A.length)) = Rm n final := by
      funext i j
      rw [toMat, Matrix.of_apply, Rm, Matrix.of_apply, entry,
        getD_map_lt (fun row => row.drop A.length) final (i : ℕ)
          (by rw [hsF.1]; exact i.isLt) [] [], getD_drop, hA]
      rfl
    have hone : toMat n final = 1 := unitCols_full_toMat n final hucF
    have hRA : Rm n final * toMat n A = 1 := by rw [← hinvF, hone]
    have hAR : toMat n A * Rm n final = 1 := Matrix.mul_eq_one_comm.mp hRA
    refine ⟨by rw [List.length_map, hsF.1], ?_, by rw [hMmat]; exact hAR,
      by rw [hMmat]; exact hRA⟩
    intro r hr
    rw [getD_map_lt (fun row => row.drop A.length) final r (by rw [hsF.1]; omega) [] [],
      List.length_drop, hsF.2 r hr, hA]
    omega

/-- C4 counterexample: `matrixInverse [[1e11]]` succeeds and returns
`[[1e-11]]`, but inverting that result fails the 1e-10 pivot check, so
`matrixInverse (matrixInverse A)` throws instead of being approximately `A`. -/
theorem claim_C4_cex :
    matrixInverse [[(100000000000 : ℚ)]] = .ok [[1 / 100000000000]] ∧
    matrixInverse [[(1 / 100000000000 : ℚ)]] = .error .singularMatrix ∧
    ∀ M2 : List (List ℚ),
      (Except.error JsErr.singularMatrix : Except JsErr (List (List ℚ))) ≠ .ok M2 := by
  refine ⟨?_, ?_, fun M2 hc => Except.noConfusion hc⟩
  · rw [matrixInverse]
    norm_num [augmentIdentity, gjStep, gjScale, gjElim, swapRows, findPivotRow, entry, tol,
      show List.range 1 = [0] from by decide,
      show List.range' 1 0 = ([] : List ℕ) from rfl,
      List.foldlM_cons, List.foldlM_nil]
  · rw [matrixInverse]
    norm_num [augmentIdentity, gjStep, gjScale, gjElim, swapRows, findPivotRow, entry, tol,
      show List.range 1 = [0] from by decide,
      show List.range' 1 0 = ([] : List ℕ) from rfl,
      List.foldlM_cons, List.foldlM_nil]
    have habs : |(1 / 100000000000 : ℚ)| = 1 / 100000000000 := abs_of_pos (by norm_num)
    rw [habs, if_pos (by norm_num)]
    rfl

/-- C4 (amended: the round trip additionally assumes the second inversion
succeeds): for every square `A` with `matrixInverse A = M`,
`matrixMultiply A M` equals the identity elementwise within 1e-6 (exactly, in
the rational model), and whenever `matrixInverse M` also succeeds its result
equals `A` elementwise within 1e-6. -/
theorem claim_C4 (A : List (List ℚ)) (n : ℕ) (hA : A.length = n)
    (hrows : ∀ r, r < n → (A.getD r []).length = n)
    (M : List (List ℚ)) (h : matrixInverse A = .ok M) :
    (∀ i c, i < n → c < n →
      |entry (matrixMultiply A M) i c - entry (identityMatrix n) i c| ≤ approxTol) ∧
    (∀ M2, matrixInverse M = .ok M2 →
      ∀ i c, i < n → c < n → |entry M2 i c - entry A i c| ≤ approxTol) := by
  obtain ⟨hMlen, hMrows, hAM, hMA⟩ := matrixInverse_ok_inverse A n hA hrows M h
  constructor
  · intro i c hi hc
    have hn : 0 < n := by omega
    have hheadM : (M.headD []).length = n := by
      rw [headD_eq_getD]
      exact hMrows 0 hn
    have hheadA : (A.headD []).length = n := by
      rw [headD_eq_getD]
      exact hrows 0 hn
    rw [entry_matrixMultiply A M i c (by omega) (by rw [hheadM]; omega), hheadA]
    have hsum : ∑ k in Finset.range n, entry A i k * entry M k c
        = (toMat n A * toMat n M) ⟨i, hi⟩ ⟨c, hc⟩ := by
      rw [Matrix.mul_apply, ← Fin.sum_univ_eq_sum_range (fun k => entry A i k * entry M k c) n]
      rfl
    rw [hsum, hAM, Matrix.one_apply, entry_identityMatrix]
    by_cases hic : i = c
    · rw [if_pos (Fin.ext hic), if_pos ⟨hi, hc, hic.symm⟩, sub_self, abs_zero]
      norm_num [approxTol]
    · rw [if_neg (fun hc2 => hic (congrArg Fin.val hc2)),
        if_neg (fun hcond => hic hcond.2.2.symm), sub_self, abs_zero]
      norm_num [approxTol]
  · intro M2 h2 i c hi hc
    obtain ⟨_, _, hMM2, _⟩ := matrixInverse_ok_inverse M n hMlen hMrows M2 h2
    have hM2A : toMat n M2 = toMat n A := by
      calc toMat n M2 = 1 * toMat n M2 := by rw [Matrix.one_mul]
        _ = (toMat n A * toMat n M) * toMat n M2 := by rw [hAM]
        _ = toMat n A * (toMat n M * toMat n M2) := by rw [Matrix.mul_assoc]
        _ = toMat n A * 1 := by rw [hMM2]
        _ = toMat n A := by rw [Matrix.mul_one]
    have h3 : entry M2 i c = entry A i c := congrFun (congrFun hM2A ⟨i, hi⟩) ⟨c, hc⟩
    rw [h3, sub_self, abs_zero]
    norm_num [approxTol]

theorem matrixInverse_two : matrixInverse [[(2 : ℚ)]] = .ok [[1 / 2]] := by
  rw [matrixInverse]
  norm_num [augmentIdentity, gjStep, gjScale, gjElim, swapRows, findPivotRow, entry, tol,
    show List.range 1 = [0] from by decide,
    show List.range' 1 0 = ([] : List ℕ) from rfl,
    List.foldlM_cons, List.foldlM_nil]

/-- C4 witness: the amended theorem applied at `A = [[2]]`, whose inverse is
`[[1/2]]`. -/
theorem claim_C4_witness :
    (([[(2 : ℚ)]] : List (List ℚ)).length = 1 ∧
     (∀ r, r < 1 → (([[(2 : ℚ)]] : List (List ℚ)).getD r []).length = 1) ∧
     matrixInverse [[(2 : ℚ)]] = .ok [[1 / 2]]) ∧
    ((∀ i c, i < 1 → c < 1 →
      |entry (matrixMultiply [[(2 : ℚ)]] [[1 / 2]]) i c - entry (identityMatrix 1) i c|
        ≤ approxTol) ∧
     (∀ M2, matrixInverse [[(1 / 2 : ℚ)]] = .ok M2 →
      ∀ i c, i < 1 → c < 1 → |entry M2 i c - entry [[(2 : ℚ)]] i c| ≤ approxTol)) :=
  ⟨⟨rfl, by decide, matrixInverse_two⟩,
   claim_C4 [[(2 : ℚ)]] 1 rfl (by decide) [[1 / 2]] matrixInverse_two⟩
